import Mathlib

/-!
Verification development for the GitLab statistics fetcher (`main.go`).

The Go program is shallowly embedded in Lean:

* Go strings are represented as `List Char`; machine integers (`int64`) as
  `Int` (the counters involved stay far below `2^63` in every property we
  state, and where the source's overflow behaviour matters — `strconv.Atoi` —
  the 64-bit bounds are modelled explicitly).
* The two goroutine pools (`fetchCommits`/`fetchMRs`, and `fetchDiscussions`)
  are embedded as small-step transition systems: each worker's next atomic
  action (load of the stop flag, atomic fetch-and-add of the shared cursor,
  channel send, store of the stop flag) is one transition, and a `schedule`
  (a list of worker indices) resolves the interleaving nondeterminism.
  `fetchCommits` and `fetchMRs` are the same algorithm modulo the record
  type, so a single model parametrised by `pages : Nat → List α` covers both.
  The bounded channel of the source is modelled as an unbounded publish list:
  the aggregator goroutine drains the channel concurrently until it is closed,
  so the capacity bound only restricts interleavings and the unbounded model
  is a superset of the source's behaviours; the properties proved are
  universally quantified over schedules, hence carry over.
* File contents (CSV outputs, the `.fetched_projects` checkpoint) are byte
  sequences, `List Char`; appending to a file is list append, and the
  `stat.Size() > 0` check is a check that the current content is nonempty.
* `time.Time` values are represented by their `RFC3339` rendering: the source
  only ever formats them via `formatDate`, never inspects them.
-/

namespace GitlabStat

/-- Convert a Lean string literal to the `List Char` representation used for
Go strings throughout this development. -/
def chars (s : String) : List Char := s.toList

/-! ### Go `strings.ReplaceAll` and the commit-message sanitisation
(`writeCommitsCSV`, lines 344-347, and `writeNotesCSV`, lines 430-433). -/

/-- Go `strings.ReplaceAll s old new` on byte sequences: scan left to right,
replacing each non-overlapping occurrence of `old` by `new`.  (The source only
calls it with the nonempty patterns `"\n"` and `"\r"`; the empty-pattern
behaviour of Go, which inserts `new` between characters, is not modelled and
the empty pattern is treated as matching nowhere.) -/
def goReplaceAll (s old new : List Char) : List Char :=
  match s with
  | [] => []
  | c :: rest =>
      if h : old ≠ [] ∧ (c :: rest).take old.length = old then
        new ++ goReplaceAll ((c :: rest).drop old.length) old new
      else
        c :: goReplaceAll rest old new
termination_by s.length
decreasing_by
  · simp only [List.length_drop]
    cases old with
    | nil => exact absurd rfl h.1
    | cons o os => simp; omega
  · simp

/-- The message sanitisation of `writeCommitsCSV` (lines 346-347): replace
`"\n"` by `" "`, then `"\r"` by `" "`.  `writeNotesCSV` applies the identical
transformation to the note body (lines 432-433). -/
def cleanMessage (msg : List Char) : List Char :=
  goReplaceAll (goReplaceAll msg ['\n'] [' ']) ['\r'] [' ']

/-! ### Go `encoding/csv` writer (the subset exercised by the source:
default comma, `UseCRLF = false`). -/

/-- Go `encoding/csv` `fieldNeedsQuotes`: an empty field needs no quotes; the
literal field `\.` always does; otherwise a field needs quotes when it
contains a comma, a double quote, `\r` or `\n`, or starts with white space. -/
def fieldNeedsQuotes (f : List Char) : Bool :=
  match f with
  | [] => false
  | c :: _ =>
      f == ['\\', '.'] ||
      f.any (fun ch => ch == ',' || ch == '"' || ch == '\r' || ch == '\n') ||
      c.isWhitespace

/-- Inside a quoted CSV field, each `"` is doubled; with `UseCRLF = false`
every other character (including `\r` and `\n`) is written unchanged. -/
def escapeQuotes : List Char → List Char
  | [] => []
  | c :: r => if c == '"' then '"' :: '"' :: escapeQuotes r else c :: escapeQuotes r

/-- One CSV field as written by `csv.Writer.Write`. -/
def encodeField (f : List Char) : List Char :=
  if fieldNeedsQuotes f then '"' :: (escapeQuotes f ++ ['"']) else f

/-- Fields of one record joined with commas (a comma before every field but
the first, as in `csv.Writer.Write`). -/
def joinFields : List (List Char) → List Char
  | [] => []
  | [f] => f
  | f :: rest => f ++ ',' :: joinFields rest

/-- One CSV record as emitted by `csv.Writer.Write` with `UseCRLF = false`:
the encoded fields joined by commas, terminated by `'\n'`. -/
def csvLine (fields : List (List Char)) : List Char :=
  joinFields (fields.map encodeField) ++ ['\n']

/-! ### Decimal rendering (`strconv.FormatInt(_, 10)` / `fmt` `%d`). -/

/-- Little-endian decimal digit characters of `n`, computed with explicit
fuel (any fuel `≥ n` is exact; structural recursion keeps the definition
kernel-evaluable). -/
def natDigitsRev : Nat → Nat → List Char
  | 0, _ => []
  | Nat.succ fuel, n => if n = 0 then [] else Nat.digitChar (n % 10) :: natDigitsRev fuel (n / 10)

/-- Decimal digits of a natural number, most significant first, as characters
(`"0"` for zero). -/
def natRepr (n : Nat) : List Char :=
  if n = 0 then ['0'] else (natDigitsRev n n).reverse

/-- Base-10 rendering of an `int64` as produced by `strconv.FormatInt` and
the `fmt` verb `%d`. -/
def intRepr (i : Int) : List Char :=
  if i < 0 then '-' :: natRepr i.natAbs else natRepr i.toNat

/-! ### Data records and the three CSV exporters
(`writeCommitsCSV`, `writeMRsCSV`, `writeNotesCSV`). -/

/-- The fields of `gitlab.Commit` used by `writeCommitsCSV`.  Dates carry
their `RFC3339` rendering; a `nil` `*time.Time` is `none`. -/
structure Commit where
  projectID : Int
  id : List Char
  authorName : List Char
  authorEmail : List Char
  committedDate : Option (List Char)
  message : List Char
  additions : Int
  deletions : Int
  total : Int
deriving DecidableEq, Repr

/-- The fields of `gitlab.BasicMergeRequest` used by `writeMRsCSV`. -/
structure BasicMergeRequest where
  projectID : Int
  id : Int
  title : List Char
  state : List Char
  authorUsername : List Char
  authorName : List Char
  createdAt : Option (List Char)
  mergedAt : Option (List Char)
  sourceBranch : List Char
  targetBranch : List Char
  sha : List Char
  mergeCommitSHA : List Char
  squashCommitSHA : List Char
deriving DecidableEq, Repr

/-- The fields of `gitlab.Note` used by `writeNotesCSV`. -/
structure Note where
  projectID : Int
  id : Int
  authorName : List Char
  authorUsername : List Char
  createdAt : Option (List Char)
  updatedAt : Option (List Char)
  body : List Char
  system : Bool
deriving DecidableEq, Repr

/-- `formatDate` (lines 650-655): `nil` formats as the empty string,
otherwise the `RFC3339` rendering of the date (which is how the date is
represented here). -/
def formatDate : Option (List Char) → List Char
  | none => []
  | some d => d

/-- `strconv.FormatBool`. -/
def formatBool (b : Bool) : List Char :=
  if b then chars "true" else chars "false"

/-- Header row of `commits.csv` (lines 339-340). -/
def commitsHeader : List (List Char) :=
  [chars "project_id", chars "id", chars "author_name", chars "author_email",
   chars "date", chars "message", chars "additions", chars "deletions", chars "total"]

/-- Header row of `merge_requests.csv` (lines 382-384). -/
def mrsHeader : List (List Char) :=
  [chars "project_id", chars "mr_id", chars "title", chars "state",
   chars "author_username", chars "author_name", chars "created_at", chars "merged_at",
   chars "source_branch", chars "target_branch", chars "sha",
   chars "merge_commit_sha", chars "squash_commit_sha"]

/-- Header row of `notes.csv` (lines 425-426). -/
def notesHeader : List (List Char) :=
  [chars "project_id", chars "note_id", chars "author_name", chars "author_username",
   chars "created_at", chars "updated_at", chars "body", chars "system"]

/-- The row written for one commit (lines 349-359), message sanitised. -/
def commitRow (c : Commit) : List (List Char) :=
  [intRepr c.projectID, c.id, c.authorName, c.authorEmail,
   formatDate c.committedDate, cleanMessage c.message,
   intRepr c.additions, intRepr c.deletions, intRepr c.total]

/-- The row written for one merge request (lines 388-402). -/
def mrRow (m : BasicMergeRequest) : List (List Char) :=
  [intRepr m.projectID, intRepr m.id, m.title, m.state,
   m.authorUsername, m.authorName, formatDate m.createdAt, formatDate m.mergedAt,
   m.sourceBranch, m.targetBranch, m.sha, m.mergeCommitSHA, m.squashCommitSHA]

/-- The row written for one note (lines 435-444), body sanitised. -/
def noteRow (n : Note) : List (List Char) :=
  [intRepr n.projectID, intRepr n.id, n.authorName, n.authorUsername,
   formatDate n.createdAt, formatDate n.updatedAt,
   cleanMessage n.body, formatBool n.system]

/-- Bytes appended for a batch of commit rows. -/
def commitRowsBytes (commits : List Commit) : List Char :=
  (commits.map (fun c => csvLine (commitRow c))).flatten

/-- Bytes appended for a batch of merge-request rows. -/
def mrRowsBytes (mrs : List BasicMergeRequest) : List Char :=
  (mrs.map (fun m => csvLine (mrRow m))).flatten

/-- Bytes appended for a batch of note rows. -/
def noteRowsBytes (notes : List Note) : List Char :=
  (notes.map (fun n => csvLine (noteRow n))).flatten

/-- `writeCommitsCSV` (lines 322-363) as a function on the file content:
open in append mode (content passed in), write the header iff the file size
is zero at open time (`hasHeader := stat.Size() > 0`), then one row per
commit. -/
def writeCommitsCSV (commits : List Commit) (file : List Char) : List Char :=
  let hasHeader := 0 < file.length
  file ++ (if hasHeader then [] else csvLine commitsHeader) ++ commitRowsBytes commits

/-- `writeMRsCSV` (lines 365-406) as a function on the file content. -/
def writeMRsCSV (mrs : List BasicMergeRequest) (file : List Char) : List Char :=
  let hasHeader := 0 < file.length
  file ++ (if hasHeader then [] else csvLine mrsHeader) ++ mrRowsBytes mrs

/-- `writeNotesCSV` (lines 408-448) as a function on the file content. -/
def writeNotesCSV (notes : List Note) (file : List Char) : List Char :=
  let hasHeader := 0 < file.length
  file ++ (if hasHeader then [] else csvLine notesHeader) ++ noteRowsBytes notes

/-- A sequence of `writeCommitsCSV` calls appending to the same file,
starting from an empty (size-zero) file. -/
def foldCommitsCSV (calls : List (List Commit)) : List Char :=
  calls.foldl (fun f cs => writeCommitsCSV cs f) []

/-- A sequence of `writeMRsCSV` calls appending to the same file. -/
def foldMRsCSV (calls : List (List BasicMergeRequest)) : List Char :=
  calls.foldl (fun f ms => writeMRsCSV ms f) []

/-- A sequence of `writeNotesCSV` calls appending to the same file. -/
def foldNotesCSV (calls : List (List Note)) : List Char :=
  calls.foldl (fun f ns => writeNotesCSV ns f) []

/-! ### The checkpoint store: `loadFetchedProjects` (lines 201-222) and
`markProjectFetched` (lines 225-239).

`loadFetchedProjects` repeatedly runs `fmt.Fscanf(file, "%d %s\n", ...)` and
stops at the first failure.  The relevant Go `fmt` scanning semantics for
this format string, modelled below: the verbs `%d` and `%s` first discard
leading spaces (not newlines — `Fscanf` requires newlines in the input to
match newlines in the format); `%d` reads an optionally signed decimal
number; `%s` reads a maximal nonempty run of non-space characters; the `'\n'`
in the format consumes horizontal space (including the `'\r'` of a `"\r\n"`
pair, which Go scanning treats as a plain newline) and then exactly one
newline. -/

/-- Horizontal white space skipped before a scanning verb. -/
def isBlank (c : Char) : Bool := c == ' ' || c == '\t'

/-- Skip leading horizontal white space. -/
def skipBlanks : List Char → List Char
  | [] => []
  | c :: r => if isBlank c then skipBlanks r else c :: r

/-- Characters accepted by the `%s` verb (anything that is not white space). -/
def isTokChar (c : Char) : Bool := !(c == ' ' || c == '\t' || c == '\n' || c == '\r')

/-- Split a maximal run of decimal digits off the front. -/
def digitSpan : List Char → List Char × List Char
  | [] => ([], [])
  | c :: r =>
      if c.isDigit then
        let pr := digitSpan r
        (c :: pr.1, pr.2)
      else ([], c :: r)

/-- Split a maximal run of `%s`-token characters off the front. -/
def tokSpan : List Char → List Char × List Char
  | [] => ([], [])
  | c :: r =>
      if isTokChar c then
        let pr := tokSpan r
        (c :: pr.1, pr.2)
      else ([], c :: r)

/-- Numeric value of a big-endian digit-character run. -/
def digitsToNat (ds : List Char) : Nat :=
  ds.foldl (fun a c => a * 10 + (c.toNat - 48)) 0

/-- The `%d` verb: skip blanks, then an optionally signed nonempty digit run. -/
def parseDec (s : List Char) : Option (Int × List Char) :=
  match skipBlanks s with
  | [] => none
  | c :: r =>
      if c = '-' then
        let pr := digitSpan r
        if pr.1.isEmpty then none else some (-(digitsToNat pr.1 : Int), pr.2)
      else if c = '+' then
        let pr := digitSpan r
        if pr.1.isEmpty then none else some ((digitsToNat pr.1 : Int), pr.2)
      else
        let pr := digitSpan (c :: r)
        if pr.1.isEmpty then none else some ((digitsToNat pr.1 : Int), pr.2)

/-- The `%s` verb: skip blanks, then a maximal nonempty non-space token. -/
def parseTok (s : List Char) : Option (List Char × List Char) :=
  let pr := tokSpan (skipBlanks s)
  if pr.1.isEmpty then none else some pr

/-- White space consumed before the newline required by `'\n'` in the format. -/
def isBlankCR (c : Char) : Bool := c == ' ' || c == '\t' || c == '\r'

/-- Skip blanks and carriage returns. -/
def skipBlanksCR : List Char → List Char
  | [] => []
  | c :: r => if isBlankCR c then skipBlanksCR r else c :: r

/-- The `'\n'` at the end of the format string: horizontal space and `'\r'`
may precede the required newline. -/
def matchNL (s : List Char) : Option (List Char) :=
  match skipBlanksCR s with
  | [] => none
  | c :: r => if c = '\n' then some r else none

/-- One `fmt.Fscanf(file, "%d %s\n", &projectID, &projectPath)` call:
returns the scanned id and the unconsumed remainder, or `none` on failure. -/
def parseEntry (s : List Char) : Option (Int × List Char) :=
  match parseDec s with
  | none => none
  | some (id, s1) =>
      match parseTok s1 with
      | none => none
      | some (_, s2) =>
          match matchNL s2 with
          | none => none
          | some s3 => some (id, s3)

/-- The scanning loop of `loadFetchedProjects` (lines 213-219): scan entries,
collecting ids, until the first failure.  Fueled for termination; every
successful `parseEntry` consumes at least one character, so
`content.length + 1` units of fuel are always enough. -/
def loadLoop : Nat → List Char → List Int
  | 0, _ => []
  | Nat.succ fuel, s =>
      match parseEntry s with
      | none => []
      | some (id, rest) => id :: loadLoop fuel rest

/-- `loadFetchedProjects`: a missing file (`none`, the `os.Open` error path)
yields the empty set; otherwise the ids scanned from the content.  The Go
`map[int64]bool` is represented by the list of its keys (membership is all
the program ever uses). -/
def loadFetchedProjects (file : Option (List Char)) : List Int :=
  match file with
  | none => []
  | some content => loadLoop (content.length + 1) content

/-- The line `fmt.Fprintf(file, "%d %s\n", projectID, projectPath)` appends
(line 235). -/
def entryLine (id : Int) (path : List Char) : List Char :=
  intRepr id ++ ' ' :: (path ++ ['\n'])

/-- Content of a checkpoint file holding the given entries in order. -/
def storeContent (entries : List (Int × List Char)) : List Char :=
  (entries.map (fun e => entryLine e.1 e.2)).flatten

/-- `markProjectFetched` as a function on the checkpoint file content:
open in append-create mode and append one formatted line. -/
def markProjectFetched (content : List Char) (id : Int) (path : List Char) : List Char :=
  content ++ entryLine id path

/-- A path string that survives the `%s` round trip: nonempty and free of
white space (true of GitLab `path_with_namespace` values such as `"a/b"`). -/
def validTok (path : List Char) : Prop :=
  path ≠ [] ∧ ∀ ch ∈ path, isTokChar ch = true

/-- Checker for fully well-formed checkpoint content: a (possibly empty)
sequence of scannable entries with nothing left over. -/
def wfCheckLoop : Nat → List Char → Bool
  | 0, _ => false
  | Nat.succ fuel, s =>
      if s.isEmpty then true
      else
        match parseEntry s with
        | none => false
        | some (_, rest) => wfCheckLoop fuel rest

/-- Well-formedness of checkpoint file content. -/
def wellFormed (content : List Char) : Bool :=
  wfCheckLoop (content.length + 1) content

/-! ### The main loop (lines 89-103). -/

/-- Lines 89-94: keep the resolved projects whose id is not in the set loaded
from the checkpoint file at startup.  The in-memory set is never updated
afterwards. -/
def projectsToFetch (fetched : List Int) (allProjects : List (Int × List Char)) :
    List (Int × List Char) :=
  allProjects.filter (fun pr => !(fetched.contains pr.1))

/-- The ids appended to the checkpoint index during one run: one
`markProjectFetched` call per element of `projectsToFetch`, in order
(lines 96-103). -/
def checkpointAppends (fetched : List Int) (allProjects : List (Int × List Char)) :
    List Int :=
  (projectsToFetch fetched allProjects).map Prod.fst

/-- The checkpoint file content after the loop of lines 96-103: each project
processed calls `markProjectFetched` unconditionally after `fetchAll`
returns, whatever the fetch results were. -/
def mainMarkLoop (content : List Char) (projects : List (Int × List Char)) : List Char :=
  projects.foldl (fun c pr => markProjectFetched c pr.1 pr.2) content

/-! ### `extractPath` (lines 184-198) and the per-URL resolution step. -/

/-- The components of `net/url.URL` used by the source. -/
structure GoURL where
  scheme : List Char
  host : List Char
  path : List Char
deriving DecidableEq, Repr

/-- Split a string around its first occurrence of `"://"`. -/
def splitSchemeRest : List Char → Option (List Char × List Char)
  | [] => none
  | ':' :: '/' :: '/' :: rest => some ([], rest)
  | c :: rest =>
      match splitSchemeRest rest with
      | none => none
      | some pr => some (c :: pr.1, pr.2)

/-- `url.Parse` restricted to the shapes the program receives (an absolute
`scheme://host/path` URL, or a string with no `"://"` which Go parses as a
bare path with empty host).  Query, fragment and userinfo components are not
modelled: the source only reads `.Host` and `.Path`. -/
def goParseURL (s : List Char) : GoURL :=
  match splitSchemeRest s with
  | none => ⟨[], [], s⟩
  | some (sch, rest) =>
      ⟨sch, rest.takeWhile (fun c => !(c == '/')), rest.dropWhile (fun c => !(c == '/'))⟩

/-- `strings.TrimPrefix(path, "/")`. -/
def trimLeadSlash : List Char → List Char
  | '/' :: r => r
  | s => s

/-- The error returned by `extractPath` when the input URL's host differs
from the base URL's host (line 194). -/
inductive ExtractErr where
  | hostMismatch (host baseHost : List Char)
deriving DecidableEq, Repr

/-- `extractPath` (lines 184-198): parse both URLs, require equal hosts,
strip the leading slash from the input URL's path. -/
def extractPath (inputURL baseURL : List Char) : Except ExtractErr (List Char) :=
  let u := goParseURL inputURL
  let b := goParseURL baseURL
  if u.host = b.host then Except.ok (trimLeadSlash u.path)
  else Except.error (ExtractErr.hostMismatch u.host b.host)

/-- The per-URL step of the main loop (lines 77-87): on an `extractPath`
error the program terminates via `log.Fatal` before issuing any API call;
only on success is the resolver (here an oracle `fetch` from paths to
project lists) consulted. -/
def resolveInput (fetch : List Char → List (Int × List Char))
    (inputURL baseURL : List Char) : Except ExtractErr (List (Int × List Char)) :=
  match extractPath inputURL baseURL with
  | Except.error e => Except.error e
  | Except.ok p => Except.ok (fetch p)

/-! ### `strconv.Atoi` and the `GITLAB_WORKERS` parsing (lines 46-49). -/

/-- Syntactic validity for `strconv.Atoi`: an optional sign followed by a
nonempty run of decimal digits and nothing else. -/
def atoiValid (s : List Char) : Bool :=
  match s with
  | [] => false
  | '+' :: r => !r.isEmpty && r.all Char.isDigit
  | '-' :: r => !r.isEmpty && r.all Char.isDigit
  | _ => s.all Char.isDigit

/-- Whether the `strconv.Atoi` input carries a minus sign. -/
def atoiNeg (s : List Char) : Bool :=
  match s with
  | '-' :: _ => true
  | _ => false

/-- Magnitude of a syntactically valid `strconv.Atoi` input. -/
def atoiMag (s : List Char) : Nat :=
  match s with
  | '+' :: r => digitsToNat r
  | '-' :: r => digitsToNat r
  | _ => digitsToNat s

/-- Largest `int64`. -/
def int64Max : Int := 9223372036854775807

/-- Smallest `int64`. -/
def int64Min : Int := -9223372036854775808

/-- `strconv.Atoi` on a 64-bit platform: `(0, ErrSyntax)` on malformed
input, the clamped extreme with `ErrRange` on overflow, the value with a nil
error otherwise.  Result is `(value, ok)`. -/
def goAtoi (s : List Char) : Int × Bool :=
  if atoiValid s then
    let v : Int := if atoiNeg s then -(atoiMag s : Int) else (atoiMag s : Int)
    if int64Min ≤ v ∧ v ≤ int64Max then (v, true)
    else ((if v < 0 then int64Min else int64Max), false)
  else (0, false)

/-- Lines 46-49: `workersCount := 1`; when `GITLAB_WORKERS` is set and
nonempty, `workersCount, err = strconv.Atoi(...)` — the error is never
examined, so the `Atoi` result value is used unconditionally. -/
def parseWorkersCount (env : List Char) : Int :=
  if env.isEmpty then 1 else (goAtoi env).1

/-! ### The concurrent page fetcher (`fetchCommits`, lines 450-499, and
`fetchMRs`, lines 516-563 — the same algorithm modulo the record type).

Shared state: the page cursor `nextPage` (starting at 1), the one-shot stop
flag, and the results channel, modelled as the list of pages published so
far in send order (the aggregator drains the channel in that order, so the
final slice is the concatenation of the published pages).  `req` records, in
claim order, every page number for which a worker issues a request;
`sig` counts the `atomic.StoreInt32(&stop, 1)` operations executed.

Each worker loops through the atomic actions of lines 467-482:
load `stop` (exit if set) → fetch-and-add the page cursor → fetch the page
(a pure function of the page number; a fetch error in the source yields
`nil`, i.e. an empty page) → on an empty page, store the stop flag and exit
→ otherwise send the page and loop. -/
namespace PageFetch

/-- The worker's position between two consecutive atomic actions. -/
inductive WState where
  | start
  | claim
  | publish (p : Nat)
  | term
  | done
deriving DecidableEq, Repr

/-- Shared state plus the local state of each worker. -/
structure Config where
  np : Nat
  stop : Bool
  pub : List Nat
  req : List Nat
  sig : Nat
  ws : List WState
deriving DecidableEq, Repr

/-- One atomic action of worker `i`, currently in state `w`. -/
def stepAt {α : Type} (pages : Nat → List α) (c : Config) (i : Nat) : WState → Config
  | WState.start =>
      if c.stop then { c with ws := c.ws.set i WState.done }
      else { c with ws := c.ws.set i WState.claim }
  | WState.claim =>
      if (pages c.np).isEmpty then
        { c with np := c.np + 1, req := c.req ++ [c.np], ws := c.ws.set i WState.term }
      else
        { c with np := c.np + 1, req := c.req ++ [c.np],
                 ws := c.ws.set i (WState.publish c.np) }
  | WState.publish p =>
      { c with pub := c.pub ++ [p], ws := c.ws.set i WState.start }
  | WState.term =>
      { c with stop := true, sig := c.sig + 1, ws := c.ws.set i WState.done }
  | WState.done => c

/-- One scheduled step: worker `i` performs its next atomic action
(out-of-range indices are no-ops). -/
def stepWorker {α : Type} (pages : Nat → List α) (c : Config) (i : Nat) : Config :=
  match c.ws[i]? with
  | none => c
  | some w => stepAt pages c i w

/-- Run a schedule (a list of worker indices resolving the interleaving). -/
def run {α : Type} (pages : Nat → List α) (c : Config) (sched : List Nat) : Config :=
  sched.foldl (stepWorker pages) c

/-- Initial configuration with `n` workers (lines 454-463). -/
def init (n : Nat) : Config :=
  ⟨1, false, [], [], 0, List.replicate n WState.start⟩

/-- Whether a worker has exited. -/
def isDone : WState → Bool
  | WState.done => true
  | _ => false

/-- Whether a worker is about to store the stop flag. -/
def isTerm : WState → Bool
  | WState.term => true
  | _ => false

/-- Page held by a worker that has claimed and fetched it but not yet sent
it on the channel. -/
def flightPage : WState → Option Nat
  | WState.publish p => some p
  | _ => none

/-- Pages in flight between claim and channel send. -/
def inFlight (c : Config) : List Nat := c.ws.filterMap flightPage

/-- Number of workers about to store the stop flag. -/
def termCount (c : Config) : Nat := (c.ws.filter isTerm).length

/-- Number of workers that have exited. -/
def doneCount (c : Config) : Nat := (c.ws.filter isDone).length

/-- All workers have exited: `wg.Wait()` returns, the channel is closed and
drained, and the fetch function returns. -/
def allDone (c : Config) : Bool := c.ws.all isDone

/-- The slice returned by `fetchCommits` / `fetchMRs`: the concatenation of
the published pages in send order (lines 492-495 / 556-559). -/
def result {α : Type} (pages : Nat → List α) (c : Config) : List α :=
  (c.pub.map pages).flatten

/-- Inductive invariant of the page-fetcher transition system, for a
resource with `P` total pages and `n` workers: pages are requested
consecutively from 1; published and in-flight pages are together exactly the
data pages requested so far; the stop-signal count accounts for every
requested page beyond `P`; the stop flag is set exactly when at least one
signal has fired; a worker can only have exited after the flag was set; and
signals are fired by distinct exited workers. -/
structure Inv {α : Type} (pages : Nat → List α) (P n : Nat) (c : Config) : Prop where
  np_pos : 1 ≤ c.np
  req_eq : c.req = List.range' 1 (c.np - 1)
  ws_len : c.ws.length = n
  pub_perm : (↑c.pub + ↑(inFlight c) : Multiset Nat) =
    ↑(List.range' 1 (min (c.np - 1) P))
  sig_eq : c.sig + termCount c = (c.np - 1) - min (c.np - 1) P
  stop_iff : c.stop = true ↔ 1 ≤ c.sig
  done_stop : 0 < doneCount c → c.stop = true
  sig_le : c.sig ≤ doneCount c

end PageFetch

/-! ### The discussion fetcher (`fetchDiscussions`, lines 580-630).

Index-based variant: the shared cursor `nextIdx` starts at 0 and indexes the
pre-enumerated list of `M` merge-request iids; a worker that claims an index
`≥ M` exits.  `reqs` records, in claim order, each in-range index claimed
(each such claim is followed by exactly one `fetchMRDiscussions` call);
`pub` is the channel content in send order and `prog` the shared progress
counter `done`. -/
namespace IdxFetch

/-- The worker's position between two consecutive atomic actions. -/
inductive WState where
  | start
  | work (idx : Nat)
  | done
deriving DecidableEq, Repr

/-- Shared state plus the local state of each worker. -/
structure Config where
  ni : Nat
  reqs : List Nat
  pub : List Nat
  prog : Nat
  ws : List WState
deriving DecidableEq, Repr

/-- One atomic action of worker `i`, currently in state `w`, with `M`
merge-request iids to process (lines 599-613). -/
def stepAt (M : Nat) (c : Config) (i : Nat) : WState → Config
  | WState.start =>
      if c.ni < M then
        { c with ni := c.ni + 1, reqs := c.reqs ++ [c.ni],
                 ws := c.ws.set i (WState.work c.ni) }
      else
        { c with ni := c.ni + 1, ws := c.ws.set i WState.done }
  | WState.work idx =>
      { c with pub := c.pub ++ [idx], prog := c.prog + 1, ws := c.ws.set i WState.start }
  | WState.done => c

/-- One scheduled step of worker `i`. -/
def stepWorker (M : Nat) (c : Config) (i : Nat) : Config :=
  match c.ws[i]? with
  | none => c
  | some w => stepAt M c i w

/-- Run a schedule. -/
def run (M : Nat) (c : Config) (sched : List Nat) : Config :=
  sched.foldl (stepWorker M) c

/-- Initial configuration with `n` workers (lines 584-596). -/
def init (n : Nat) : Config :=
  ⟨0, [], [], 0, List.replicate n WState.start⟩

/-- Whether a worker has exited. -/
def isDone : WState → Bool
  | WState.done => true
  | _ => false

/-- Number of workers that have exited. -/
def doneCount (c : Config) : Nat := (c.ws.filter isDone).length

/-- All workers have exited. -/
def allDone (c : Config) : Bool := c.ws.all isDone

/-- The canonical terminating schedule: worker 0 processes every unit, then
each worker observes the exhausted cursor once. -/
def drainSched (M n : Nat) : List Nat :=
  List.replicate (2 * M + 1) 0 ++ List.range n

/-- Inductive invariant of the discussion-fetcher transition system with `M`
work units and `n` workers: in-range indices are claimed consecutively from
0, and a worker can only have exited after the cursor passed `M`. -/
structure InvD (M n : Nat) (c : Config) : Prop where
  reqs_eq : c.reqs = List.range (min c.ni M)
  ws_len : c.ws.length = n
  done_ni : 0 < doneCount c → M < c.ni

end IdxFetch

/-! ### Concrete instances used to witness the theorems below. -/

/-- A two-page resource: pages 1 and 2 hold one record each, later pages are
empty. -/
def pagesTwo : Nat → List Nat := fun p => if 1 ≤ p ∧ p ≤ 2 then [p] else []

/-- A resource with no records at all (`P = 0`). -/
def pagesNone : Nat → List Nat := fun _ => []

/-- A schedule on which two workers drain `pagesTwo`: worker 0 fetches pages
1, 2 and 3 (empty), stores the stop flag and exits; worker 1 then observes
the flag and exits. -/
def schedTwo : List Nat := [0, 0, 0, 0, 0, 0, 0, 0, 0, 1]

/-- A schedule on which two workers racing on the empty resource both pass
the stop-flag check before either stores it: both claim a page (pages 1 and
2) and both store the stop flag. -/
def schedRace : List Nat := [0, 1, 0, 1, 0, 1]

/-- A commit whose author name contains a newline: its CSV row is quoted and
spans two physical lines. -/
def badCommit : Commit :=
  ⟨7, chars "deadbeef", chars "a\nb", chars "e@x", some (chars "2024-01-01T00:00:00Z"),
   chars "msg", 1, 2, 3⟩

/-- An ordinary commit with newline-free fields. -/
def plainCommit : Commit :=
  ⟨7, chars "deadbeef", chars "Ann", chars "e@x", some (chars "2024-01-01T00:00:00Z"),
   chars "line1\nline2\r\n", 1, 2, 3⟩

/-- An ordinary merge request. -/
def plainMR : BasicMergeRequest :=
  ⟨7, 1, chars "t", chars "merged", chars "ann", chars "Ann",
   some (chars "2024-01-01T00:00:00Z"), none, chars "dev", chars "main",
   chars "abc", chars "def", []⟩

/-- An ordinary note. -/
def plainNote : Note :=
  ⟨7, 2, chars "Ann", chars "ann", some (chars "2024-01-01T00:00:00Z"), none,
   chars "ok", false⟩

/-! ## Lemmas about the sanitisation and the CSV encoding -/

/-- `strings.ReplaceAll` with a single-character pattern and replacement is a
character-wise map. -/
theorem goReplaceAll_single (a b : Char) :
    ∀ s : List Char, goReplaceAll s [a] [b] = s.map (fun c => if c = a then b else c) := by
  intro s
  induction s with
  | nil => simp [goReplaceAll]
  | cons c rest ih =>
    rw [goReplaceAll]
    by_cases h : c = a
    · subst h
      rw [dif_pos ⟨by simp, by simp⟩]
      simpa using ih
    · rw [dif_neg]
      · simp [h, ih]
      · intro hc
        exact h (by simpa using hc.2)

/-- The two `ReplaceAll` passes of the source replace each `'\n'` and each
`'\r'` with its own single `' '`. -/
theorem cleanMessage_map (msg : List Char) :
    cleanMessage msg = msg.map (fun c => if c = '\n' ∨ c = '\r' then ' ' else c) := by
  unfold cleanMessage
  rw [goReplaceAll_single, goReplaceAll_single, List.map_map]
  apply List.map_congr_left
  intro c _
  by_cases h1 : c = '\n'
  · subst h1; simp
  · by_cases h2 : c = '\r' <;> simp [h1, h2, Function.comp]

/-- Sanitised messages contain no newline and no carriage return. -/
theorem mem_cleanMessage_ne {msg : List Char} {ch : Char} (h : ch ∈ cleanMessage msg) :
    ch ≠ '\n' ∧ ch ≠ '\r' := by
  rw [cleanMessage_map] at h
  obtain ⟨c, _, rfl⟩ := List.mem_map.mp h
  by_cases h1 : c = '\n'
  · simp [h1]
  · by_cases h2 : c = '\r' <;> simp [h1, h2]

/-- Newline count is preserved by quote doubling. -/
theorem count_escapeQuotes (f : List Char) :
    (escapeQuotes f).count '\n' = f.count '\n' := by
  induction f with
  | nil => rfl
  | cons c r ih =>
    by_cases h : c = '"'
    · subst h
      simpa [escapeQuotes, List.count_cons] using ih
    · have hb : (c == '"') = false := by simpa using h
      simp [escapeQuotes, hb, List.count_cons, ih]

/-- Newline count is preserved by CSV field encoding. -/
theorem count_encodeField (f : List Char) :
    (encodeField f).count '\n' = f.count '\n' := by
  unfold encodeField
  by_cases h : fieldNeedsQuotes f = true
  · simp [h, List.count_cons, List.count_append, count_escapeQuotes]
  · simp [h]

/-- Newline count of comma-joined fields is the sum of the field counts. -/
theorem count_joinFields (L : List (List Char)) :
    (joinFields L).count '\n' = (L.map (fun f => f.count '\n')).sum := by
  induction L with
  | nil => rfl
  | cons f rest ih =>
    cases rest with
    | nil => simp [joinFields]
    | cons g r =>
      simp only [joinFields, List.count_append, List.count_cons, List.map_cons, List.sum_cons] at *
      simp [ih]

/-- Newline count of one emitted CSV record: one terminator plus the counts
of the individual fields. -/
theorem count_csvLine (fields : List (List Char)) :
    (csvLine fields).count '\n' =
      (fields.map (fun f => f.count '\n')).sum + 1 := by
  have h1 : (fields.map encodeField).map (fun f => f.count '\n') =
      fields.map (fun f => f.count '\n') := by
    rw [List.map_map]
    exact List.map_congr_left (fun f _ => count_encodeField f)
  simp [csvLine, List.count_append, count_joinFields, h1]

/-- Digit characters are digits. -/
theorem digitChar_isDigit {d : Nat} (hd : d < 10) : (Nat.digitChar d).isDigit = true := by
  interval_cases d <;> decide

/-- With enough fuel, `natDigitsRev` computes the little-endian decimal
digit characters given by `Nat.digits`. -/
theorem natDigitsRev_eq (fuel : Nat) :
    ∀ n ≤ fuel, natDigitsRev fuel n = (Nat.digits 10 n).map Nat.digitChar := by
  induction fuel with
  | zero =>
    intro n hn
    interval_cases n
    simp [natDigitsRev]
  | succ fuel ih =>
    intro n hn
    by_cases h : n = 0
    · simp [natDigitsRev, h]
    · rw [natDigitsRev, if_neg h,
        Nat.digits_def' (by norm_num : (1:Nat) < 10) (Nat.pos_of_ne_zero h), List.map_cons]
      have hdiv : n / 10 < n := Nat.div_lt_self (Nat.pos_of_ne_zero h) (by norm_num)
      rw [ih (n / 10) (by omega)]

/-- `natRepr` of a nonzero number is the big-endian digit rendering. -/
theorem natRepr_eq_digits {n : Nat} (h : n ≠ 0) :
    natRepr n = ((Nat.digits 10 n).map Nat.digitChar).reverse := by
  rw [natRepr, if_neg h, natDigitsRev_eq n n le_rfl]

/-- Every character of `natRepr n` is a decimal digit. -/
theorem natRepr_digits {n : Nat} : ∀ c ∈ natRepr n, c.isDigit = true := by
  intro c hc
  by_cases h : n = 0
  · rw [natRepr, if_pos h] at hc
    simp at hc
    simp [hc]
  · rw [natRepr_eq_digits h] at hc
    simp only [List.mem_reverse, List.mem_map] at hc
    obtain ⟨d, hd, rfl⟩ := hc
    exact digitChar_isDigit (Nat.digits_lt_base (by norm_num) hd)

/-- Decimal renderings contain no newline. -/
theorem intRepr_no_nl (i : Int) : '\n' ∉ intRepr i := by
  intro h
  unfold intRepr at h
  by_cases hi : i < 0
  · simp only [hi, if_true, List.mem_cons] at h
    rcases h with h | h
    · exact absurd h (by decide)
    · have := natRepr_digits _ h
      simp at this
  · simp only [hi, if_false] at h
    have := natRepr_digits _ h
    simp at this

/-- C3 helper: the newline count of the sanitised message is zero. -/
theorem count_cleanMessage_nl (msg : List Char) : (cleanMessage msg).count '\n' = 0 :=
  List.count_eq_zero.mpr (fun h => (mem_cleanMessage_ne h).1 rfl)

/-- C3 (corrected): the sanitisation replaces each `'\n'` and each `'\r'` of
the commit message with its own single space — so the example message
`"line1\nline2\r\n"` is written as `"line1 line2  "`, with two trailing
spaces — and a commit whose remaining string fields are newline-free
occupies exactly one physical CSV line. -/
theorem c3_message_sanitisation :
    cleanMessage (chars "line1\nline2\r\n") = chars "line1 line2  "
    ∧ (∀ msg : List Char,
        cleanMessage msg = msg.map (fun c => if c = '\n' ∨ c = '\r' then ' ' else c))
    ∧ (∀ c : Commit,
        '\n' ∉ c.id → '\n' ∉ c.authorName → '\n' ∉ c.authorEmail →
        '\n' ∉ formatDate c.committedDate →
        (csvLine (commitRow c)).count '\n' = 1) := by
  refine ⟨by rw [cleanMessage_map]; decide, cleanMessage_map, ?_⟩
  intro c h1 h2 h3 h4
  simp [commitRow, count_csvLine, count_cleanMessage_nl,
    List.count_eq_zero.mpr h1, List.count_eq_zero.mpr h2, List.count_eq_zero.mpr h3,
    List.count_eq_zero.mpr h4,
    List.count_eq_zero.mpr (intRepr_no_nl c.projectID),
    List.count_eq_zero.mpr (intRepr_no_nl c.additions),
    List.count_eq_zero.mpr (intRepr_no_nl c.deletions),
    List.count_eq_zero.mpr (intRepr_no_nl c.total)]

/-- C3 witness: the concrete example message, and a concrete commit with
newline-free fields producing exactly one physical line. -/
theorem c3_witness :
    cleanMessage (chars "line1\nline2\r\n") = chars "line1 line2  "
    ∧ (csvLine (commitRow plainCommit)).count '\n' = 1 :=
  ⟨c3_message_sanitisation.1,
   c3_message_sanitisation.2.2 plainCommit (by decide) (by decide) (by decide) (by decide)⟩

/-- C3 counterexample: the claim's expected output `"line1 line2 "` (a single
trailing space) is wrong — each of `'\r'` and `'\n'` becomes its own space —
and a commit record whose author name contains a newline spans two physical
CSV lines, so the unconditional one-line-per-record part fails as well. -/
theorem c3_counterexample :
    cleanMessage (chars "line1\nline2\r\n") ≠ chars "line1 line2 "
    ∧ (csvLine (commitRow badCommit)).count '\n' ≠ 1 := by
  constructor
  · rw [cleanMessage_map]; decide
  · simp only [commitRow, badCommit, cleanMessage_map]
    decide

/-- C4 counterexample: when the same project (id 7) is resolved from two
input URLs in one run and is not yet checkpointed, the run appends it twice,
violating the at-most-one-append-per-run claim. -/
theorem c4_counterexample :
    ¬ ((checkpointAppends [] [(7, chars "a/b"), (7, chars "a/b")]).count 7 ≤ 1) := by
  decide

/-- C4 (corrected): the run appends one checkpoint line per occurrence of a
project among the resolved projects that is not already checkpointed; hence
whenever no project identifier is resolved twice, each identifier is
appended at most once per run. -/
theorem c4_append_at_most_once (fetched : List Int) (allProjects : List (Int × List Char))
    (hnodup : (allProjects.map Prod.fst).Nodup) (id : Int) :
    (checkpointAppends fetched allProjects).count id ≤ 1 := by
  have hsub : List.Sublist ((projectsToFetch fetched allProjects).map Prod.fst)
      (allProjects.map Prod.fst) :=
    List.Sublist.map Prod.fst (List.filter_sublist allProjects)
  exact List.nodup_iff_count_le_one.mp (hnodup.sublist hsub) id

/-- C4 witness: a duplicate-free resolution list appends each id once. -/
theorem c4_witness :
    (checkpointAppends [] [(7, chars "a/b"), (8, chars "c/d")]).count 7 ≤ 1 :=
  c4_append_at_most_once [] [(7, chars "a/b"), (8, chars "c/d")] (by decide) 7

/-! ## The CSV header protocol (C6) -/

/-- An emitted CSV record is never the empty byte sequence. -/
theorem csvLine_ne_nil (fields : List (List Char)) : csvLine fields ≠ [] := by
  simp [csvLine]

/-- Folding writer calls over a nonempty file only appends rows. -/
theorem foldWrite_ne {β : Type} (w : List β → List Char → List Char)
    (rows : List β → List Char)
    (h1 : ∀ bs f, f ≠ [] → w bs f = f ++ rows bs) :
    ∀ (calls : List (List β)) (f : List Char), f ≠ [] →
      calls.foldl (fun acc bs => w bs acc) f = f ++ (calls.map rows).flatten := by
  intro calls
  induction calls with
  | nil => intro f _; simp
  | cons bs rest ih =>
    intro f hf
    have hne : w bs f ≠ [] := by
      rw [h1 bs f hf]
      simp [hf]
    calc (bs :: rest).foldl (fun acc bs => w bs acc) f
        = rest.foldl (fun acc bs => w bs acc) (w bs f) := rfl
      _ = w bs f ++ (rest.map rows).flatten := ih (w bs f) hne
      _ = f ++ ((bs :: rest).map rows).flatten := by rw [h1 bs f hf]; simp

/-- Folding writer calls from an empty file writes the header exactly once,
at the very front, followed by all rows of all calls in order. -/
theorem foldWrite_main {β : Type} (w : List β → List Char → List Char)
    (hdr : List Char) (rows : List β → List Char) (hhdr : hdr ≠ [])
    (h0 : ∀ bs, w bs [] = hdr ++ rows bs)
    (h1 : ∀ bs f, f ≠ [] → w bs f = f ++ rows bs) :
    ∀ calls : List (List β), calls ≠ [] →
      calls.foldl (fun acc bs => w bs acc) [] = hdr ++ (calls.map rows).flatten := by
  intro calls hc
  cases calls with
  | nil => exact absurd rfl hc
  | cons bs rest =>
    have hne : w bs [] ≠ [] := by
      rw [h0 bs]
      simp [hhdr]
    calc (bs :: rest).foldl (fun acc bs => w bs acc) []
        = rest.foldl (fun acc bs => w bs acc) (w bs []) := rfl
      _ = w bs [] ++ (rest.map rows).flatten := foldWrite_ne w rows h1 rest (w bs []) hne
      _ = hdr ++ ((bs :: rest).map rows).flatten := by rw [h0 bs]; simp

/-- `writeCommitsCSV` step equations: header iff size zero. -/
theorem writeCommitsCSV_eq (cs : List Commit) (f : List Char) :
    writeCommitsCSV cs f =
      f ++ (if f = [] then csvLine commitsHeader else []) ++ commitRowsBytes cs := by
  unfold writeCommitsCSV
  cases f <;> simp

/-- `writeMRsCSV` step equations: header iff size zero. -/
theorem writeMRsCSV_eq (ms : List BasicMergeRequest) (f : List Char) :
    writeMRsCSV ms f =
      f ++ (if f = [] then csvLine mrsHeader else []) ++ mrRowsBytes ms := by
  unfold writeMRsCSV
  cases f <;> simp

/-- `writeNotesCSV` step equations: header iff size zero. -/
theorem writeNotesCSV_eq (ns : List Note) (f : List Char) :
    writeNotesCSV ns f =
      f ++ (if f = [] then csvLine notesHeader else []) ++ noteRowsBytes ns := by
  unfold writeNotesCSV
  cases f <;> simp

/-- C6 (confirmed): each of the three exporters writes its fixed header row
if and only if the file has size zero at open time, and any nonempty
sequence of exporter calls appending to the same (initially empty) file
produces the header exactly once, at the front, never repeated. -/
theorem c6_header_once :
    (∀ (cs : List Commit) (f : List Char),
        writeCommitsCSV cs f =
          f ++ (if f = [] then csvLine commitsHeader else []) ++ commitRowsBytes cs)
    ∧ (∀ calls : List (List Commit), calls ≠ [] →
        foldCommitsCSV calls = csvLine commitsHeader ++ (calls.map commitRowsBytes).flatten)
    ∧ (∀ (ms : List BasicMergeRequest) (f : List Char),
        writeMRsCSV ms f =
          f ++ (if f = [] then csvLine mrsHeader else []) ++ mrRowsBytes ms)
    ∧ (∀ calls : List (List BasicMergeRequest), calls ≠ [] →
        foldMRsCSV calls = csvLine mrsHeader ++ (calls.map mrRowsBytes).flatten)
    ∧ (∀ (ns : List Note) (f : List Char),
        writeNotesCSV ns f =
          f ++ (if f = [] then csvLine notesHeader else []) ++ noteRowsBytes ns)
    ∧ (∀ calls : List (List Note), calls ≠ [] →
        foldNotesCSV calls = csvLine notesHeader ++ (calls.map noteRowsBytes).flatten) := by
  refine ⟨writeCommitsCSV_eq, ?_, writeMRsCSV_eq, ?_, writeNotesCSV_eq, ?_⟩
  · exact foldWrite_main _ _ _ (csvLine_ne_nil _)
      (fun bs => by rw [writeCommitsCSV_eq]; simp)
      (fun bs f hf => by rw [writeCommitsCSV_eq]; simp [hf])
  · exact foldWrite_main _ _ _ (csvLine_ne_nil _)
      (fun bs => by rw [writeMRsCSV_eq]; simp)
      (fun bs f hf => by rw [writeMRsCSV_eq]; simp [hf])
  · exact foldWrite_main _ _ _ (csvLine_ne_nil _)
      (fun bs => by rw [writeNotesCSV_eq]; simp)
      (fun bs f hf => by rw [writeNotesCSV_eq]; simp [hf])

/-- C6 witness: concrete two-call sequences for each exporter. -/
theorem c6_witness :
    foldCommitsCSV [[plainCommit], [plainCommit]] =
      csvLine commitsHeader ++ ([[plainCommit], [plainCommit]].map commitRowsBytes).flatten
    ∧ foldMRsCSV [[plainMR], []] =
      csvLine mrsHeader ++ ([[plainMR], []].map mrRowsBytes).flatten
    ∧ foldNotesCSV [[plainNote]] =
      csvLine notesHeader ++ ([[plainNote]].map noteRowsBytes).flatten :=
  ⟨c6_header_once.2.1 _ (by simp), c6_header_once.2.2.2.1 _ (by simp),
   c6_header_once.2.2.2.2.2 _ (by simp)⟩

/-! ## URL host validation (C9) -/

/-- C9 (confirmed): when the input URL's host equals the base URL's host,
`extractPath` succeeds with the input's path minus its leading slash (in
particular `https://gitlab.example/group/proj` against base
`https://gitlab.example` yields `group/proj`); when the hosts differ it
fails with the host-mismatch validation error and the resolver oracle is
never consulted. -/
theorem c9_extract_path :
    (∀ input base : List Char,
        ((goParseURL input).host = (goParseURL base).host →
          extractPath input base = Except.ok (trimLeadSlash (goParseURL input).path))
        ∧ ((goParseURL input).host ≠ (goParseURL base).host →
          extractPath input base =
            Except.error (ExtractErr.hostMismatch (goParseURL input).host (goParseURL base).host)
          ∧ ∀ fetch, resolveInput fetch input base =
              Except.error
                (ExtractErr.hostMismatch (goParseURL input).host (goParseURL base).host)))
    ∧ extractPath (chars "https://gitlab.example/group/proj") (chars "https://gitlab.example") =
        Except.ok (chars "group/proj") := by
  refine ⟨?_, by rfl⟩
  intro input base
  constructor
  · intro h
    simp [extractPath, h]
  · intro h
    have he : extractPath input base =
        Except.error (ExtractErr.hostMismatch (goParseURL input).host (goParseURL base).host) := by
      simp [extractPath, h]
    exact ⟨he, fun fetch => by simp [resolveInput, he]⟩

/-! ## The checkpoint store (C7, C8) -/

/-- `skipBlanks` leaves a non-blank head alone. -/
theorem skipBlanks_cons_of {c : Char} (r : List Char) (h : isBlank c = false) :
    skipBlanks (c :: r) = c :: r := by
  simp [skipBlanks, h]

/-- `skipBlanks` drops a blank head. -/
theorem skipBlanks_cons_blank {c : Char} (r : List Char) (h : isBlank c = true) :
    skipBlanks (c :: r) = skipBlanks r := by
  simp [skipBlanks, h]

/-- `digitSpan` splits exactly at the first non-digit. -/
theorem digitSpan_append {A r : List Char} (hA : ∀ a ∈ A, a.isDigit = true)
    (hr : ∀ c, r.head? = some c → c.isDigit = false) :
    digitSpan (A ++ r) = (A, r) := by
  induction A with
  | nil =>
    cases r with
    | nil => rfl
    | cons c t => simp [digitSpan, hr c rfl]
  | cons a A ih =>
    have ha := hA a (List.mem_cons_self a A)
    have ih' := ih (fun x hx => hA x (List.mem_cons_of_mem a hx))
    simp [digitSpan, ha, ih']

/-- `tokSpan` splits exactly at the first non-token character. -/
theorem tokSpan_append {A r : List Char} (hA : ∀ a ∈ A, isTokChar a = true)
    (hr : ∀ c, r.head? = some c → isTokChar c = false) :
    tokSpan (A ++ r) = (A, r) := by
  induction A with
  | nil =>
    cases r with
    | nil => rfl
    | cons c t => simp [tokSpan, hr c rfl]
  | cons a A ih =>
    have ha := hA a (List.mem_cons_self a A)
    have ih' := ih (fun x hx => hA x (List.mem_cons_of_mem a hx))
    simp [tokSpan, ha, ih']

/-- Token characters are not blanks. -/
theorem isTokChar_not_blank {c : Char} (h : isTokChar c = true) : isBlank c = false := by
  by_cases hs : c = ' '
  · subst hs; simp [isTokChar] at h
  · by_cases ht : c = '\t'
    · subst ht; simp [isTokChar] at h
    · simp [isBlank, hs, ht]

/-- Digit characters are not blanks. -/
theorem isDigit_not_blank {c : Char} (h : c.isDigit = true) : isBlank c = false := by
  cases hb : isBlank c with
  | false => rfl
  | true =>
    have : c = ' ' ∨ c = '\t' := by
      simpa [isBlank] using hb
    rcases this with rfl | rfl <;> simp at h

/-- Value of a digit character. -/
theorem digitChar_val {d : Nat} (hd : d < 10) : (Nat.digitChar d).toNat - 48 = d := by
  interval_cases d <;> decide

/-- `digitsToNat` recovers a number from its reversed digit-character list. -/
theorem foldl_digitChars :
    ∀ L : List Nat, (∀ d ∈ L, d < 10) → ∀ a : Nat,
      ((L.map Nat.digitChar).reverse).foldl (fun x c => x * 10 + (c.toNat - 48)) a =
        a * 10 ^ L.length + Nat.ofDigits 10 L := by
  intro L
  induction L with
  | nil => intro _ a; simp
  | cons d t ih =>
    intro h a
    have hd : d < 10 := h d (List.mem_cons_self d t)
    have ih' := ih (fun x hx => h x (List.mem_cons_of_mem d hx)) a
    simp only [List.map_cons, List.reverse_cons, List.foldl_append, List.foldl_cons,
      List.foldl_nil]
    rw [ih', digitChar_val hd, Nat.ofDigits_cons, List.length_cons]
    ring

/-- Decimal round trip: scanning the rendering of `n` gives back `n`. -/
theorem digitsToNat_natRepr (n : Nat) : digitsToNat (natRepr n) = n := by
  by_cases h : n = 0
  · subst h; decide
  · rw [natRepr_eq_digits h]
    unfold digitsToNat
    rw [foldl_digitChars _ (fun d hd => Nat.digits_lt_base (by norm_num) hd) 0]
    simp [Nat.ofDigits_digits]

/-- `natRepr` never renders to the empty string. -/
theorem natRepr_ne_nil (n : Nat) : natRepr n ≠ [] := by
  by_cases h : n = 0
  · simp [natRepr, h]
  · rw [natRepr_eq_digits h]
    simp [Nat.digits_ne_nil_iff_ne_zero, h]

/-- The `%d` verb scans exactly the decimal rendering of `i` when what
follows does not begin with a digit. -/
theorem parseDec_intRepr (i : Int) {r : List Char}
    (hr : ∀ c, r.head? = some c → c.isDigit = false) :
    parseDec (intRepr i ++ r) = some (i, r) := by
  by_cases hi : i < 0
  · have hspan := digitSpan_append (natRepr_digits (n := i.natAbs)) hr
    rw [intRepr, if_pos hi, List.cons_append]
    simp only [parseDec, skipBlanks_cons_of _ (show isBlank '-' = false by decide),
      if_pos rfl]
    rw [hspan]
    have habs : ((i.natAbs : Int)) = -i := Int.ofNat_natAbs_of_nonpos (le_of_lt hi)
    simp [natRepr_ne_nil, digitsToNat_natRepr, habs]
  · rcases hnr : natRepr i.toNat with _ | ⟨c, cs⟩
    · exact absurd hnr (natRepr_ne_nil _)
    · have hcd : c.isDigit = true := natRepr_digits c (by rw [hnr]; exact List.mem_cons_self c cs)
      have hc1 : ¬ (c = '-') := fun hc => by subst hc; simp at hcd
      have hc2 : ¬ (c = '+') := fun hc => by subst hc; simp at hcd
      have hspan : digitSpan ((c :: cs) ++ r) = (c :: cs, r) := by
        rw [← hnr]
        exact digitSpan_append (natRepr_digits (n := i.toNat)) hr
      rw [intRepr, if_neg hi, hnr, List.cons_append]
      simp only [parseDec, skipBlanks_cons_of _ (isDigit_not_blank hcd), if_neg hc1,
        if_neg hc2]
      rw [← List.cons_append, hspan]
      simp only [List.isEmpty_cons, Bool.false_eq_true, if_false]
      rw [← hnr, digitsToNat_natRepr]
      rw [Int.toNat_of_nonneg (by omega)]

/-- The `%s` verb ignores a leading blank. -/
theorem parseTok_blank {c : Char} (h : isBlank c = true) (t : List Char) :
    parseTok (c :: t) = parseTok t := by
  simp [parseTok, skipBlanks_cons_blank _ h]

/-- The `%s` verb scans exactly a valid token when what follows does not
begin with a token character. -/
theorem parseTok_valid {path r : List Char} (hv : validTok path)
    (hr : ∀ c, r.head? = some c → isTokChar c = false) :
    parseTok (path ++ r) = some (path, r) := by
  obtain ⟨hne, htok⟩ := hv
  rcases path with _ | ⟨p, ps⟩
  · exact absurd rfl hne
  · have hp := htok p (List.mem_cons_self p ps)
    have hspan := tokSpan_append (A := p :: ps) (r := r) htok hr
    rw [List.cons_append]
    unfold parseTok
    rw [skipBlanks_cons_of _ (isTokChar_not_blank hp), ← List.cons_append, hspan]
    simp

/-- The trailing `'\n'` of the format consumes exactly the newline. -/
theorem matchNL_cons (r : List Char) : matchNL ('\n' :: r) = some r := by
  simp [matchNL, skipBlanksCR, isBlankCR]

/-- One scan of the line `fmt.Fprintf` wrote for `(id, path)` succeeds and
consumes exactly that line. -/
theorem parseEntry_entryLine (id : Int) {path : List Char} (hv : validTok path)
    (r : List Char) :
    parseEntry (entryLine id path ++ r) = some (id, r) := by
  have h1 : entryLine id path ++ r = intRepr id ++ (' ' :: (path ++ ('\n' :: r))) := by
    simp [entryLine]
  have hd : ∀ c : Char, (' ' :: (path ++ ('\n' :: r))).head? = some c → c.isDigit = false := by
    intro c hc
    simp only [List.head?_cons, Option.some.injEq] at hc
    subst hc; decide
  have hr' : ∀ c : Char, (('\n' :: r) : List Char).head? = some c → isTokChar c = false := by
    intro c hc
    simp only [List.head?_cons, Option.some.injEq] at hc
    subst hc; decide
  simp only [parseEntry, h1, parseDec_intRepr id hd,
    parseTok_blank (show isBlank ' ' = true by decide), parseTok_valid hv hr',
    matchNL_cons]

/-- `skipBlanks` never lengthens its input. -/
theorem skipBlanks_length (s : List Char) : (skipBlanks s).length ≤ s.length := by
  induction s with
  | nil => simp [skipBlanks]
  | cons c r ih =>
    by_cases h : isBlank c = true
    · rw [skipBlanks_cons_blank _ h]; simp; omega
    · rw [skipBlanks_cons_of _ (by simpa using h)]

/-- `skipBlanksCR` never lengthens its input. -/
theorem skipBlanksCR_length (s : List Char) : (skipBlanksCR s).length ≤ s.length := by
  induction s with
  | nil => simp [skipBlanksCR]
  | cons c r ih =>
    by_cases h : isBlankCR c = true <;> simp [skipBlanksCR, h] <;> omega

/-- The remainder left by `digitSpan` is no longer than the input. -/
theorem digitSpan_snd_length (s : List Char) : (digitSpan s).2.length ≤ s.length := by
  induction s with
  | nil => simp [digitSpan]
  | cons c r ih =>
    by_cases h : c.isDigit = true <;> simp [digitSpan, h] <;> omega

/-- The remainder left by `tokSpan` is no longer than the input. -/
theorem tokSpan_snd_length (s : List Char) : (tokSpan s).2.length ≤ s.length := by
  induction s with
  | nil => simp [tokSpan]
  | cons c r ih =>
    by_cases h : isTokChar c = true <;> simp [tokSpan, h] <;> omega

/-- A successful `matchNL` strictly consumes input. -/
theorem matchNL_length {s r : List Char} (h : matchNL s = some r) :
    r.length < s.length := by
  have hsk := skipBlanksCR_length s
  rcases hs : skipBlanksCR s with _ | ⟨c, t⟩
  · simp only [matchNL, hs] at h
    exact Option.noConfusion h
  · simp only [matchNL, hs] at h
    rw [hs] at hsk
    by_cases hc : c = '\n'
    · rw [if_pos hc] at h
      cases h
      simp at hsk
      omega
    · rw [if_neg hc] at h
      exact Option.noConfusion h

/-- A successful `parseDec` never lengthens the remainder. -/
theorem parseDec_length {s : List Char} {i : Int} {r : List Char}
    (h : parseDec s = some (i, r)) : r.length ≤ s.length := by
  have hsk := skipBlanks_length s
  rcases hs : skipBlanks s with _ | ⟨c, t⟩
  · simp only [parseDec, hs] at h
    exact Option.noConfusion h
  · simp only [parseDec, hs] at h
    rw [hs] at hsk
    have ht := digitSpan_snd_length t
    have hct := digitSpan_snd_length (c :: t)
    simp only [List.length_cons] at hsk hct
    split_ifs at h <;>
      first
        | exact Option.noConfusion h
        | (cases h; omega)

/-- A successful `parseTok` never lengthens the remainder. -/
theorem parseTok_length {s : List Char} {tok r : List Char}
    (h : parseTok s = some (tok, r)) : r.length ≤ s.length := by
  have hsk := skipBlanks_length s
  have ht := tokSpan_snd_length (skipBlanks s)
  simp only [parseTok] at h
  split_ifs at h
  have h' : (tokSpan (skipBlanks s)).2 = r := congrArg Prod.snd (Option.some.inj h)
  rw [← h']
  omega

/-- Each successfully scanned entry strictly consumes input. -/
theorem parseEntry_length {s : List Char} {id : Int} {rest : List Char}
    (h : parseEntry s = some (id, rest)) : rest.length < s.length := by
  rcases h1 : parseDec s with _ | ⟨i, s1⟩
  · simp [parseEntry, h1] at h
  · simp only [parseEntry, h1] at h
    rcases h2 : parseTok s1 with _ | ⟨tok, s2⟩
    · simp [h2] at h
    · simp only [h2] at h
      rcases h3 : matchNL s2 with _ | s3
      · simp [h3] at h
      · simp only [h3] at h
        cases h
        have hd := parseDec_length h1
        have ht := parseTok_length h2
        have hn := matchNL_length h3
        omega

/-- The scanning loop is fuel-independent once the fuel exceeds the input
length. -/
theorem loadLoop_fuel :
    ∀ (f1 f2 : Nat) (s : List Char), s.length < f1 → s.length < f2 →
      loadLoop f1 s = loadLoop f2 s := by
  intro f1
  induction f1 with
  | zero => intro f2 s h1 _; exact absurd h1 (Nat.not_lt_zero _)
  | succ f ih =>
    intro f2 s h1 h2
    cases f2 with
    | zero => exact absurd h2 (Nat.not_lt_zero _)
    | succ g =>
      simp only [loadLoop]
      rcases hp : parseEntry s with _ | ⟨id, rest⟩
      · simp [hp]
      · simp only [hp]
        have hl := parseEntry_length hp
        rw [ih g rest (by omega) (by omega)]

/-- Scanning a store of valid entries followed by arbitrary content yields
the entry ids followed by whatever the remaining content scans to. -/
theorem loadLoop_store :
    ∀ (entries : List (Int × List Char)) (r : List Char) (fuel : Nat),
      (∀ e ∈ entries, validTok e.2) → (storeContent entries ++ r).length < fuel →
      loadLoop fuel (storeContent entries ++ r) =
        entries.map Prod.fst ++ loadLoop (r.length + 1) r := by
  intro entries
  induction entries with
  | nil =>
    intro r fuel _ hf
    simp only [storeContent, List.map_nil, List.flatten_nil, List.nil_append] at hf ⊢
    exact loadLoop_fuel fuel (r.length + 1) r hf (by omega)
  | cons e es ih =>
    intro r fuel hv hf
    have hee : storeContent (e :: es) ++ r = entryLine e.1 e.2 ++ (storeContent es ++ r) := by
      simp [storeContent]
    rw [hee] at hf ⊢
    cases fuel with
    | zero => exact absurd hf (Nat.not_lt_zero _)
    | succ f =>
      have hstep : loadLoop (f + 1) (entryLine e.1 e.2 ++ (storeContent es ++ r)) =
          e.1 :: loadLoop f (storeContent es ++ r) := by
        simp only [loadLoop,
          parseEntry_entryLine e.1 (hv e (List.mem_cons_self e es)) (storeContent es ++ r)]
      have hne : 0 < (entryLine e.1 e.2).length := by
        simp [entryLine]
      have hlen : (storeContent es ++ r).length < f := by
        rw [List.length_append] at hf
        omega
      rw [hstep, ih r f (fun x hx => hv x (List.mem_cons_of_mem _ hx)) hlen]
      simp

/-- C7 (confirmed): appending a checkpoint entry for project 7 with
`markProjectFetched` to any well-formed store and loading the store again
yields a set containing 7. -/
theorem c7_roundtrip (entries : List (Int × List Char))
    (hv : ∀ e ∈ entries, validTok e.2) :
    (7 : Int) ∈ loadFetchedProjects
      (some (markProjectFetched (storeContent entries) 7 (chars "a/b"))) := by
  have hvab : validTok (chars "a/b") := ⟨by decide, by decide⟩
  have hv' : ∀ e ∈ entries ++ [((7 : Int), chars "a/b")], validTok e.2 := by
    intro e he
    rcases List.mem_append.mp he with he | he
    · exact hv e he
    · rcases List.mem_singleton.mp he with rfl
      exact hvab
  have hm : markProjectFetched (storeContent entries) 7 (chars "a/b") =
      storeContent (entries ++ [((7 : Int), chars "a/b")]) ++ [] := by
    simp [markProjectFetched, storeContent]
  simp only [loadFetchedProjects]
  rw [hm, loadLoop_store (entries ++ [((7 : Int), chars "a/b")]) [] _ hv' (by omega)]
  rw [show loadLoop (([] : List Char).length + 1) [] = ([] : List Int) from rfl]
  simp

/-- C7 witness: the round trip on the empty store. -/
theorem c7_witness :
    (7 : Int) ∈ loadFetchedProjects
      (some (markProjectFetched (storeContent []) 7 (chars "a/b"))) :=
  c7_roundtrip [] (by simp)

/-- C8 counterexample: the content `"7 a/b\n?"` is malformed (its trailing
`"?"` scans as no entry), yet `loadFetchedProjects` returns the non-empty
set `{7}` rather than the empty set the claim requires for every malformed
content. -/
theorem c8_counterexample :
    wellFormed (chars "7 a/b\n?") = false
    ∧ loadFetchedProjects (some (chars "7 a/b\n?")) ≠ [] := by
  constructor
  · decide
  · decide

/-- C8 (corrected): `loadFetchedProjects` never fails — a missing file
yields the empty set, content whose first line is malformed yields the
empty set, and in general a store of valid entries followed by a malformed
tail yields exactly the ids of the leading valid entries (the tail is
ignored). -/
theorem c8_load_graceful :
    loadFetchedProjects none = []
    ∧ (∀ c : List Char, parseEntry c = none → loadFetchedProjects (some c) = [])
    ∧ (∀ (entries : List (Int × List Char)) (r : List Char),
        (∀ e ∈ entries, validTok e.2) → parseEntry r = none →
        loadFetchedProjects (some (storeContent entries ++ r)) = entries.map Prod.fst) := by
  refine ⟨rfl, ?_, ?_⟩
  · intro c h
    simp [loadFetchedProjects, loadLoop, h]
  · intro entries r hv hr
    simp only [loadFetchedProjects]
    rw [loadLoop_store entries r _ hv (by omega)]
    simp [loadLoop, hr]

/-- C8 witness: a first-line-malformed store loads to the empty set; one
valid entry followed by garbage loads to exactly that entry's id. -/
theorem c8_witness :
    loadFetchedProjects (some (chars "?")) = []
    ∧ loadFetchedProjects (some (storeContent [((7 : Int), chars "a/b")] ++ chars "?")) =
        [(7 : Int)] := by
  constructor
  · exact c8_load_graceful.2.1 (chars "?") (by decide)
  · rw [c8_load_graceful.2.2 [((7 : Int), chars "a/b")] (chars "?")
      (by
        intro e he
        rcases List.mem_singleton.mp he with rfl
        exact ⟨by decide, by decide⟩)
      (by decide)]
    rfl

/-! ## Worker-count parsing and the zero-worker degenerate run (C10) -/

/-- C10 (confirmed): a set but syntactically invalid `GITLAB_WORKERS` makes
the worker count 0 (the `strconv.Atoi` error is never examined and its
result value 0 is kept, not the default 1); with 0 workers every fetch
phase starts no workers, immediately reaches the all-done state with an
empty result; and the main loop appends the checkpoint entry of every
processed project unconditionally, independently of the fetch results. -/
theorem c10_zero_workers :
    (∀ s : List Char, s.isEmpty = false → atoiValid s = false → parseWorkersCount s = 0)
    ∧ (∀ (α : Type) (pages : Nat → List α) (sched : List Nat),
        PageFetch.run pages (PageFetch.init 0) sched = PageFetch.init 0
        ∧ PageFetch.result pages (PageFetch.run pages (PageFetch.init 0) sched) = []
        ∧ PageFetch.allDone (PageFetch.run pages (PageFetch.init 0) sched) = true)
    ∧ (∀ (M : Nat) (sched : List Nat),
        IdxFetch.run M (IdxFetch.init 0) sched = IdxFetch.init 0
        ∧ IdxFetch.allDone (IdxFetch.run M (IdxFetch.init 0) sched) = true)
    ∧ (∀ (content : List Char) (projects : List (Int × List Char)),
        mainMarkLoop content projects = content ++ storeContent projects) := by
  refine ⟨?_, ?_, ?_, ?_⟩
  · intro s h1 h2
    simp [parseWorkersCount, h1, goAtoi, h2]
  · intro α pages sched
    have hstep : ∀ i, PageFetch.stepWorker pages (PageFetch.init 0) i = PageFetch.init 0 := by
      intro i
      simp [PageFetch.stepWorker, PageFetch.init]
    have hrun : PageFetch.run pages (PageFetch.init 0) sched = PageFetch.init 0 := by
      induction sched with
      | nil => rfl
      | cons i t ih =>
        simp only [PageFetch.run, List.foldl_cons, hstep i] at ih ⊢
        exact ih
    exact ⟨hrun, by rw [hrun]; rfl, by rw [hrun]; rfl⟩
  · intro M sched
    have hstep : ∀ i, IdxFetch.stepWorker M (IdxFetch.init 0) i = IdxFetch.init 0 := by
      intro i
      simp [IdxFetch.stepWorker, IdxFetch.init]
    have hrun : IdxFetch.run M (IdxFetch.init 0) sched = IdxFetch.init 0 := by
      induction sched with
      | nil => rfl
      | cons i t ih =>
        simp only [IdxFetch.run, List.foldl_cons, hstep i] at ih ⊢
        exact ih
    exact ⟨hrun, by rw [hrun]; rfl⟩
  · intro content projects
    induction projects generalizing content with
    | nil => simp [mainMarkLoop, storeContent]
    | cons p ps ih =>
      simp only [mainMarkLoop, List.foldl_cons] at ih ⊢
      rw [ih]
      simp [markProjectFetched, storeContent]

/-- C10 witness: concrete invalid worker string, zero-worker runs, and a
concrete unconditional checkpoint append. -/
theorem c10_witness :
    parseWorkersCount (chars "abc") = 0
    ∧ PageFetch.result pagesTwo (PageFetch.run pagesTwo (PageFetch.init 0) [0, 1, 2]) = []
    ∧ PageFetch.allDone (PageFetch.run pagesTwo (PageFetch.init 0) [0, 1, 2]) = true
    ∧ IdxFetch.allDone (IdxFetch.run 5 (IdxFetch.init 0) [0, 1]) = true
    ∧ mainMarkLoop [] [((7 : Int), chars "a/b")] =
        [] ++ storeContent [((7 : Int), chars "a/b")] :=
  ⟨c10_zero_workers.1 (chars "abc") (by decide) (by decide),
   (c10_zero_workers.2.1 Nat pagesTwo [0, 1, 2]).2.1,
   (c10_zero_workers.2.1 Nat pagesTwo [0, 1, 2]).2.2,
   (c10_zero_workers.2.2.1 5 [0, 1]).2,
   c10_zero_workers.2.2.2 [] [((7 : Int), chars "a/b")]⟩

/-! ## The concurrent page fetcher: invariants and claims C1, C2 -/

namespace PageFetch

/-- Decompose a list at a valid index; `set` then replaces the middle
element. -/
theorem getElem?_decomp {γ : Type} {l : List γ} {i : Nat} {a : γ} (h : l[i]? = some a) :
    ∃ l₁ l₂, l = l₁ ++ a :: l₂ ∧ l₁.length = i ∧ ∀ b, l.set i b = l₁ ++ b :: l₂ := by
  induction l generalizing i with
  | nil => simp at h
  | cons x xs ih =>
    cases i with
    | zero =>
      simp only [List.getElem?_cons_zero, Option.some.injEq] at h
      subst h
      exact ⟨[], xs, rfl, rfl, fun b => rfl⟩
    | succ j =>
      have h' : xs[j]? = some a := by simpa using h
      obtain ⟨l₁, l₂, hl, hlen, hset⟩ := ih h'
      refine ⟨x :: l₁, l₂, by simp [hl], by simp [hlen], fun b => ?_⟩
      simp [List.set_cons_succ, hset b]

/-- Filtered length across a one-element replacement site. -/
theorem filterLen_middle {γ : Type} (f : γ → Bool) (l₁ l₂ : List γ) (w : γ) :
    ((l₁ ++ w :: l₂).filter f).length =
      ((l₁ ++ l₂).filter f).length + (if f w then 1 else 0) := by
  by_cases h : f w <;> simp [List.filter_append, List.filter_cons, h] <;> omega

/-- `filterMap` across a one-element replacement site. -/
theorem filterMap_middle {γ δ : Type} (f : γ → Option δ) (l₁ l₂ : List γ) (w : γ) :
    (l₁ ++ w :: l₂).filterMap f =
      l₁.filterMap f ++ ((f w).toList ++ l₂.filterMap f) := by
  cases hw : f w <;> simp [List.filterMap_append, List.filterMap_cons, hw]

/-- `filterMap` of a constantly-`none` replicated list. -/
theorem filterMap_replicate_none {γ δ : Type} {f : γ → Option δ} {x : γ}
    (h : f x = none) (n : Nat) : (List.replicate n x).filterMap f = [] := by
  induction n with
  | zero => rfl
  | succ m ih => simp [List.replicate_succ, List.filterMap_cons, h, ih]

/-- `filter` of a replicated list failing the test. -/
theorem filter_replicate_false {γ : Type} {f : γ → Bool} {x : γ}
    (h : f x = false) (n : Nat) : (List.replicate n x).filter f = [] := by
  induction n with
  | zero => rfl
  | succ m ih => simp [List.replicate_succ, List.filter_cons, h, ih]

/-- The initial configuration satisfies the invariant. -/
theorem inv_init {α : Type} (pages : Nat → List α) (P n : Nat) :
    Inv pages P n (init n) := by
  refine ⟨le_refl 1, by simp [init], by simp [init], ?_, ?_, by simp [init], ?_,
    Nat.zero_le _⟩
  · have h := filterMap_replicate_none (f := flightPage) (x := WState.start) rfl n
    simp [init, inFlight, h]
  · have h := filter_replicate_false (f := isTerm) (x := WState.start) rfl n
    simp [init, termCount, h]
  · have h := filter_replicate_false (f := isDone) (x := WState.start) rfl n
    simp [init, doneCount, h]

/-- Appending the next page number extends the claimed range. -/
theorem range'_snoc {m : Nat} (hm : 1 ≤ m) :
    List.range' 1 (m - 1) ++ [m] = List.range' 1 m := by
  have h := List.range'_1_concat 1 (m - 1)
  rw [show m - 1 + 1 = m by omega, show 1 + (m - 1) = m by omega] at h
  exact h.symm

/-- One scheduled step preserves the invariant. -/
theorem inv_step {α : Type} {pages : Nat → List α} {P n : Nat}
    (hNE : ∀ p, 1 ≤ p → p ≤ P → pages p ≠ [])
    (hE : ∀ p, P < p → pages p = [])
    {c : Config} (hc : Inv pages P n c) (i : Nat) :
    Inv pages P n (stepWorker pages c i) := by
  obtain ⟨h1, h2, h3, h4, h5, h6, h7, h8⟩ := hc
  rcases hget : c.ws[i]? with _ | w
  · have hid : stepWorker pages c i = c := by
      simp only [stepWorker, hget]
    rw [hid]
    exact ⟨h1, h2, h3, h4, h5, h6, h7, h8⟩
  · obtain ⟨l₁, l₂, hws, hlen, hset⟩ := getElem?_decomp hget
    have hIF : ∀ b : WState, inFlight { c with ws := l₁ ++ b :: l₂ } =
        l₁.filterMap flightPage ++ ((flightPage b).toList ++ l₂.filterMap flightPage) :=
      fun b => filterMap_middle flightPage l₁ l₂ b
    have hIFold : inFlight c =
        l₁.filterMap flightPage ++ ((flightPage w).toList ++ l₂.filterMap flightPage) := by
      unfold inFlight
      rw [hws]
      exact filterMap_middle flightPage l₁ l₂ w
    have hTC : ∀ b : WState, termCount { c with ws := l₁ ++ b :: l₂ } =
        ((l₁ ++ l₂).filter isTerm).length + (if isTerm b then 1 else 0) :=
      fun b => filterLen_middle isTerm l₁ l₂ b
    have hTCold : termCount c =
        ((l₁ ++ l₂).filter isTerm).length + (if isTerm w then 1 else 0) := by
      unfold termCount
      rw [hws]
      exact filterLen_middle isTerm l₁ l₂ w
    have hDC : ∀ b : WState, doneCount { c with ws := l₁ ++ b :: l₂ } =
        ((l₁ ++ l₂).filter isDone).length + (if isDone b then 1 else 0) :=
      fun b => filterLen_middle isDone l₁ l₂ b
    have hDCold : doneCount c =
        ((l₁ ++ l₂).filter isDone).length + (if isDone w then 1 else 0) := by
      unfold doneCount
      rw [hws]
      exact filterLen_middle isDone l₁ l₂ w
    have hLen : ∀ b : WState, (l₁ ++ b :: l₂).length = n := by
      intro b
      rw [← h3, hws]
      simp
    rw [hIFold] at h4
    rw [hTCold] at h5
    rw [hDCold] at h7 h8
    cases w with
    | start =>
      rw [show (flightPage WState.start).toList = ([] : List Nat) from rfl,
        List.nil_append] at h4
      rw [show (if isTerm WState.start = true then 1 else 0) = 0 from rfl,
        Nat.add_zero] at h5
      rw [show (if isDone WState.start = true then 1 else 0) = 0 from rfl,
        Nat.add_zero] at h7 h8
      by_cases hs : c.stop = true
      · have hred : stepWorker pages c i = { c with ws := l₁ ++ WState.done :: l₂ } := by
          simp only [stepWorker, hget, stepAt, if_pos hs, hset]
        rw [hred]
        refine ⟨h1, h2, hLen _, ?_, ?_, h6, fun _ => hs, ?_⟩
        · dsimp only [inFlight]
          rw [filterMap_middle,
            show (flightPage WState.done).toList = ([] : List Nat) from rfl,
            List.nil_append]
          exact h4
        · dsimp only [termCount]
          rw [filterLen_middle,
            show (if isTerm WState.done = true then 1 else 0) = 0 from rfl,
            Nat.add_zero]
          exact h5
        · dsimp only [doneCount]
          rw [filterLen_middle,
            show (if isDone WState.done = true then 1 else 0) = 1 from rfl]
          omega
      · have hred : stepWorker pages c i = { c with ws := l₁ ++ WState.claim :: l₂ } := by
          simp only [stepWorker, hget, stepAt, if_neg hs, hset]
        rw [hred]
        refine ⟨h1, h2, hLen _, ?_, ?_, h6, ?_, ?_⟩
        · dsimp only [inFlight]
          rw [filterMap_middle,
            show (flightPage WState.claim).toList = ([] : List Nat) from rfl,
            List.nil_append]
          exact h4
        · dsimp only [termCount]
          rw [filterLen_middle,
            show (if isTerm WState.claim = true then 1 else 0) = 0 from rfl,
            Nat.add_zero]
          exact h5
        · dsimp only [doneCount]
          rw [filterLen_middle,
            show (if isDone WState.claim = true then 1 else 0) = 0 from rfl,
            Nat.add_zero]
          exact h7
        · dsimp only [doneCount]
          rw [filterLen_middle,
            show (if isDone WState.claim = true then 1 else 0) = 0 from rfl,
            Nat.add_zero]
          exact h8
    | claim =>
      rw [show (flightPage WState.claim).toList = ([] : List Nat) from rfl,
        List.nil_append] at h4
      rw [show (if isTerm WState.claim = true then 1 else 0) = 0 from rfl,
        Nat.add_zero] at h5
      rw [show (if isDone WState.claim = true then 1 else 0) = 0 from rfl,
        Nat.add_zero] at h7 h8
      by_cases he : (pages c.np).isEmpty = true
      · have hPnp : P < c.np := by
          by_contra hle
          exact hNE c.np h1 (by omega) (List.isEmpty_iff.mp he)
        have hred : stepWorker pages c i =
            { c with np := c.np + 1, req := c.req ++ [c.np],
                     ws := l₁ ++ WState.term :: l₂ } := by
          simp only [stepWorker, hget, stepAt, if_pos he, hset]
        rw [hred]
        have hm1 : min (c.np + 1 - 1) P = P := by omega
        have hm0 : min (c.np - 1) P = P := by omega
        rw [hm0] at h4 h5
        refine ⟨show (1 : Nat) ≤ c.np + 1 by omega, ?_, hLen _, ?_, ?_, h6, ?_, ?_⟩
        · show c.req ++ [c.np] = List.range' 1 (c.np + 1 - 1)
          rw [h2, Nat.add_sub_cancel]
          exact range'_snoc h1
        · dsimp only [inFlight]
          rw [filterMap_middle,
            show (flightPage WState.term).toList = ([] : List Nat) from rfl,
            List.nil_append, hm1]
          exact h4
        · dsimp only [termCount]
          rw [filterLen_middle,
            show (if isTerm WState.term = true then 1 else 0) = 1 from rfl, hm1]
          omega
        · dsimp only [doneCount]
          rw [filterLen_middle,
            show (if isDone WState.term = true then 1 else 0) = 0 from rfl,
            Nat.add_zero]
          exact h7
        · dsimp only [doneCount]
          rw [filterLen_middle,
            show (if isDone WState.term = true then 1 else 0) = 0 from rfl,
            Nat.add_zero]
          exact h8
      · have hnpP : c.np ≤ P := by
          by_contra hgt
          exact he (by simp [hE c.np (by omega)])
        have hred : stepWorker pages c i =
            { c with np := c.np + 1, req := c.req ++ [c.np],
                     ws := l₁ ++ WState.publish c.np :: l₂ } := by
          simp only [stepWorker, hget, stepAt, if_neg he, hset]
        rw [hred]
        have hm1 : min (c.np + 1 - 1) P = c.np := by omega
        have hm0 : min (c.np - 1) P = c.np - 1 := by omega
        rw [hm0] at h4 h5
        have hsplit : ∀ (x y : List Nat), ((x ++ y : List Nat) : Multiset Nat) = ↑x + ↑y :=
          fun x y => rfl
        refine ⟨show (1 : Nat) ≤ c.np + 1 by omega, ?_, hLen _, ?_, ?_, h6, ?_, ?_⟩
        · show c.req ++ [c.np] = List.range' 1 (c.np + 1 - 1)
          rw [h2, Nat.add_sub_cancel]
          exact range'_snoc h1
        · dsimp only [inFlight]
          rw [filterMap_middle,
            show (flightPage (WState.publish c.np)).toList = [c.np] from rfl, hm1,
            ← range'_snoc h1]
          rw [hsplit, hsplit, hsplit]
          rw [hsplit] at h4
          rw [← h4]
          abel
        · dsimp only [termCount]
          rw [filterLen_middle,
            show (if isTerm (WState.publish c.np) = true then 1 else 0) = 0 from rfl,
            Nat.add_zero, hm1]
          omega
        · dsimp only [doneCount]
          rw [filterLen_middle,
            show (if isDone (WState.publish c.np) = true then 1 else 0) = 0 from rfl,
            Nat.add_zero]
          exact h7
        · dsimp only [doneCount]
          rw [filterLen_middle,
            show (if isDone (WState.publish c.np) = true then 1 else 0) = 0 from rfl,
            Nat.add_zero]
          exact h8
    | publish p =>
      rw [show (flightPage (WState.publish p)).toList = [p] from rfl] at h4
      rw [show (if isTerm (WState.publish p) = true then 1 else 0) = 0 from rfl,
        Nat.add_zero] at h5
      rw [show (if isDone (WState.publish p) = true then 1 else 0) = 0 from rfl,
        Nat.add_zero] at h7 h8
      have hred : stepWorker pages c i =
          { c with pub := c.pub ++ [p], ws := l₁ ++ WState.start :: l₂ } := by
        simp only [stepWorker, hget, stepAt, hset]
      rw [hred]
      have hsplit : ∀ (x y : List Nat), ((x ++ y : List Nat) : Multiset Nat) = ↑x + ↑y :=
        fun x y => rfl
      refine ⟨h1, h2, hLen _, ?_, ?_, h6, ?_, ?_⟩
      · dsimp only [inFlight]
        rw [filterMap_middle,
          show (flightPage WState.start).toList = ([] : List Nat) from rfl,
          List.nil_append]
        rw [hsplit, hsplit]
        rw [hsplit, hsplit] at h4
        rw [← h4]
        abel
      · dsimp only [termCount]
        rw [filterLen_middle,
          show (if isTerm WState.start = true then 1 else 0) = 0 from rfl,
          Nat.add_zero]
        exact h5
      · dsimp only [doneCount]
        rw [filterLen_middle,
          show (if isDone WState.start = true then 1 else 0) = 0 from rfl,
          Nat.add_zero]
        exact h7
      · dsimp only [doneCount]
        rw [filterLen_middle,
          show (if isDone WState.start = true then 1 else 0) = 0 from rfl,
          Nat.add_zero]
        exact h8
    | term =>
      rw [show (flightPage WState.term).toList = ([] : List Nat) from rfl,
        List.nil_append] at h4
      rw [show (if isTerm WState.term = true then 1 else 0) = 1 from rfl] at h5
      rw [show (if isDone WState.term = true then 1 else 0) = 0 from rfl,
        Nat.add_zero] at h7 h8
      have hred : stepWorker pages c i =
          { c with stop := true, sig := c.sig + 1, ws := l₁ ++ WState.done :: l₂ } := by
        simp only [stepWorker, hget, stepAt, hset]
      rw [hred]
      refine ⟨h1, h2, hLen _, ?_, ?_, ?_, fun _ => rfl, ?_⟩
      · dsimp only [inFlight]
        rw [filterMap_middle,
          show (flightPage WState.done).toList = ([] : List Nat) from rfl,
          List.nil_append]
        exact h4
      · dsimp only [termCount]
        rw [filterLen_middle,
          show (if isTerm WState.done = true then 1 else 0) = 0 from rfl,
          Nat.add_zero]
        omega
      · exact ⟨fun _ => show (1 : Nat) ≤ c.sig + 1 by omega, fun _ => rfl⟩
      · dsimp only [doneCount]
        rw [filterLen_middle,
          show (if isDone WState.done = true then 1 else 0) = 1 from rfl]
        omega
    | done =>
      have hred : stepWorker pages c i = c := by
        simp only [stepWorker, hget, stepAt]
      rw [hred]
      refine ⟨h1, h2, h3, ?_, ?_, h6, ?_, ?_⟩
      · rw [hIFold]
        exact h4
      · rw [hTCold]
        exact h5
      · rw [hDCold]
        exact h7
      · rw [hDCold]
        exact h8

/-- Running any schedule preserves the invariant. -/
theorem inv_run {α : Type} {pages : Nat → List α} {P n : Nat}
    (hNE : ∀ p, 1 ≤ p → p ≤ P → pages p ≠ [])
    (hE : ∀ p, P < p → pages p = [])
    {c : Config} (hc : Inv pages P n c) (sched : List Nat) :
    Inv pages P n (run pages c sched) := by
  induction sched generalizing c with
  | nil => exact hc
  | cons i t ih => exact ih (inv_step hNE hE hc i)

/-- Consequences of the invariant in a terminal (all-workers-exited)
configuration: the published pages are exactly 1..P, the requested pages are
exactly 1..P+sig, and between 1 and n stop signals have fired. -/
theorem inv_terminal {α : Type} {pages : Nat → List α} {P n : Nat} {c : Config}
    (hc : Inv pages P n c) (hn : 1 ≤ n) (hd : allDone c = true) :
    c.pub.Perm (List.range' 1 P)
    ∧ c.req = List.range' 1 (P + c.sig)
    ∧ 1 ≤ c.sig ∧ c.sig ≤ n := by
  have hall : ∀ w ∈ c.ws, isDone w = true := by
    simpa [allDone, List.all_eq_true] using hd
  have hfl : inFlight c = [] := by
    rw [inFlight, List.filterMap_eq_nil_iff]
    intro w hw
    cases w with
    | start => simpa [isDone] using hall _ hw
    | claim => simpa [isDone] using hall _ hw
    | publish p => simpa [isDone] using hall _ hw
    | term => simpa [isDone] using hall _ hw
    | done => rfl
  have hterm0 : termCount c = 0 := by
    rw [termCount]
    have hnil : c.ws.filter isTerm = [] := by
      rw [List.filter_eq_nil_iff]
      intro w hw
      cases w with
      | term => simpa [isDone] using hall _ hw
      | start => simp [isTerm]
      | claim => simp [isTerm]
      | publish p => simp [isTerm]
      | done => simp [isTerm]
    simp [hnil]
  have hdc : doneCount c = n := by
    rw [doneCount, List.filter_eq_self.mpr hall, hc.ws_len]
  have hstop : c.stop = true := hc.done_stop (by omega)
  have hsig1 : 1 ≤ c.sig := hc.stop_iff.mp hstop
  have hsign : c.sig ≤ n := by
    have := hc.sig_le
    omega
  have h5 := hc.sig_eq
  rw [hterm0] at h5
  have hminP : min (c.np - 1) P = P := by
    rcases Nat.le_total (c.np - 1) P with h | h
    · rw [Nat.min_eq_left h] at h5
      omega
    · exact Nat.min_eq_right h
  have hnp : c.np - 1 = P + c.sig := by
    rw [hminP] at h5
    omega
  refine ⟨?_, ?_, hsig1, hsign⟩
  · have h4 := hc.pub_perm
    rw [hfl, hminP] at h4
    simp only [Multiset.coe_nil, add_zero] at h4
    exact Multiset.coe_eq_coe.mp h4
  · rw [hc.req_eq, hnp]

/-- C1 (confirmed): for every worker count `n ≥ 1` and every resource with
`P` total pages (pages 1..P nonempty, later pages empty, no fetch errors),
every terminating interleaving of the concurrent paginated fetcher publishes
exactly the pages 1..P — no page twice, none skipped, no page requested
twice — and returns exactly the records of pages 1..P, in some page order. -/
theorem c1_fetcher_returns_all_pages {α : Type} (pages : Nat → List α) (P n : Nat)
    (hn : 1 ≤ n)
    (hNE : ∀ p, 1 ≤ p → p ≤ P → pages p ≠ [])
    (hE : ∀ p, P < p → pages p = [])
    (sched : List Nat)
    (hdone : allDone (run pages (init n) sched) = true) :
    (run pages (init n) sched).pub.Perm (List.range' 1 P)
    ∧ (run pages (init n) sched).req.Nodup
    ∧ (result pages (run pages (init n) sched)).Perm
        ((List.range' 1 P).map pages).flatten := by
  have hinv := inv_run hNE hE (inv_init pages P n) sched
  obtain ⟨hperm, hreq, _, _⟩ := inv_terminal hinv hn hdone
  refine ⟨hperm, ?_, ?_⟩
  · rw [hreq]
    exact List.nodup_range' 1 (P + (run pages (init n) sched).sig)
  · exact (hperm.map pages).flatten

/-- C1 witness: two workers drain a concrete two-page resource. -/
theorem c1_witness :
    (run pagesTwo (init 2) schedTwo).pub.Perm (List.range' 1 2)
    ∧ (run pagesTwo (init 2) schedTwo).req.Nodup
    ∧ (result pagesTwo (run pagesTwo (init 2) schedTwo)).Perm
        ((List.range' 1 2).map pagesTwo).flatten :=
  c1_fetcher_returns_all_pages pagesTwo 2 2 (by decide)
    (fun p h1 h2 => by simp [pagesTwo, h1, h2])
    (fun p h => by simp only [pagesTwo]; rw [if_neg (by omega)])
    schedTwo (by decide)

/-- C2 counterexample: on the empty resource (`P = 0`) with 2 workers there
is an interleaving in which both workers pass the stop-flag check before
either stores the flag: page 2 > P+1 is requested and two termination
signals fire, refuting both parts of the claim as stated. -/
theorem c2_counterexample :
    allDone (run pagesNone (init 2) schedRace) = true
    ∧ (run pagesNone (init 2) schedRace).sig ≠ 1
    ∧ 2 ∈ (run pagesNone (init 2) schedRace).req
    ∧ 0 + 1 < 2
    ∧ (∀ p, 0 < p → pagesNone p = []) :=
  ⟨by decide, by decide, by decide, by decide, fun p _ => rfl⟩

/-- C2 (corrected): in every terminating interleaving, once the first empty
page P+1 is reached, at least one and at most `n` termination signals fire
and no worker requests a page beyond `P + n`; in particular for `n = 1`
exactly one signal fires and no page beyond `P + 1` is requested. -/
theorem c2_termination_signals {α : Type} (pages : Nat → List α) (P n : Nat)
    (hn : 1 ≤ n)
    (hNE : ∀ p, 1 ≤ p → p ≤ P → pages p ≠ [])
    (hE : ∀ p, P < p → pages p = [])
    (sched : List Nat)
    (hdone : allDone (run pages (init n) sched) = true) :
    1 ≤ (run pages (init n) sched).sig
    ∧ (run pages (init n) sched).sig ≤ n
    ∧ (∀ p ∈ (run pages (init n) sched).req, p ≤ P + n)
    ∧ (n = 1 → (run pages (init n) sched).sig = 1
        ∧ ∀ p ∈ (run pages (init n) sched).req, p ≤ P + 1) := by
  have hinv := inv_run hNE hE (inv_init pages P n) sched
  obtain ⟨_, hreq, hs1, hsn⟩ := inv_terminal hinv hn hdone
  have hmem : ∀ p ∈ (run pages (init n) sched).req,
      p ≤ P + (run pages (init n) sched).sig := by
    intro p hp
    rw [hreq] at hp
    obtain ⟨j, hj, rfl⟩ := List.mem_range'.mp hp
    omega
  refine ⟨hs1, hsn, fun p hp => le_trans (hmem p hp) (by omega), fun h1 => ?_⟩
  subst h1
  exact ⟨by omega, fun p hp => le_trans (hmem p hp) (by omega)⟩

/-- C2 witness: a single worker on the empty resource fires exactly one
signal and requests only page 1 = P + 1. -/
theorem c2_witness :
    1 ≤ (run pagesNone (init 1) [0, 0, 0]).sig
    ∧ (run pagesNone (init 1) [0, 0, 0]).sig ≤ 1
    ∧ (∀ p ∈ (run pagesNone (init 1) [0, 0, 0]).req, p ≤ 0 + 1)
    ∧ (1 = 1 → (run pagesNone (init 1) [0, 0, 0]).sig = 1
        ∧ ∀ p ∈ (run pagesNone (init 1) [0, 0, 0]).req, p ≤ 0 + 1) :=
  c2_termination_signals pagesNone 0 1 (le_refl 1)
    (fun p hp1 hp2 => absurd (Nat.le_trans hp1 hp2) (by decide))
    (fun p _ => rfl) [0, 0, 0] (by decide)

end PageFetch

/-! ## The discussion fetcher: invariants and claim C5 -/

namespace IdxFetch

/-- The initial configuration satisfies the invariant. -/
theorem invD_init (M n : Nat) : InvD M n (init n) := by
  refine ⟨by simp [init], by simp [init], ?_⟩
  have h := PageFetch.filter_replicate_false (f := isDone) (x := WState.start) rfl n
  simp [init, doneCount, h]

/-- One scheduled step preserves the invariant. -/
theorem invD_step {M n : Nat} {c : Config} (hc : InvD M n c) (i : Nat) :
    InvD M n (stepWorker M c i) := by
  obtain ⟨h1, h2, h3⟩ := hc
  rcases hget : c.ws[i]? with _ | w
  · have hid : stepWorker M c i = c := by
      simp only [stepWorker, hget]
    rw [hid]
    exact ⟨h1, h2, h3⟩
  · obtain ⟨l₁, l₂, hws, hlen, hset⟩ := PageFetch.getElem?_decomp hget
    have hDCold : doneCount c =
        ((l₁ ++ l₂).filter isDone).length + (if isDone w then 1 else 0) := by
      unfold doneCount
      rw [hws]
      exact PageFetch.filterLen_middle isDone l₁ l₂ w
    have hLen : ∀ b : WState, (l₁ ++ b :: l₂).length = n := by
      intro b
      rw [← h2, hws]
      simp
    cases w with
    | start =>
      rw [show (if isDone WState.start = true then 1 else 0) = 0 from rfl,
        Nat.add_zero] at hDCold
      by_cases hlt : c.ni < M
      · have hred : stepWorker M c i =
            { c with ni := c.ni + 1, reqs := c.reqs ++ [c.ni],
                     ws := l₁ ++ WState.work c.ni :: l₂ } := by
          simp only [stepWorker, hget, stepAt, if_pos hlt, hset]
        rw [hred]
        refine ⟨?_, hLen _, ?_⟩
        · show c.reqs ++ [c.ni] = List.range (min (c.ni + 1) M)
          rw [h1, Nat.min_eq_left (by omega : c.ni ≤ M),
            Nat.min_eq_left (by omega : c.ni + 1 ≤ M)]
          exact (List.range_succ c.ni).symm
        · dsimp only [doneCount]
          rw [PageFetch.filterLen_middle,
            show (if isDone (WState.work c.ni) = true then 1 else 0) = 0 from rfl,
            Nat.add_zero]
          intro hpos
          have := h3 (by omega)
          omega
      · have hred : stepWorker M c i =
            { c with ni := c.ni + 1, ws := l₁ ++ WState.done :: l₂ } := by
          simp only [stepWorker, hget, stepAt, if_neg hlt, hset]
        rw [hred]
        refine ⟨?_, hLen _, ?_⟩
        · show c.reqs = List.range (min (c.ni + 1) M)
          rw [h1, Nat.min_eq_right (by omega : M ≤ c.ni),
            Nat.min_eq_right (by omega : M ≤ c.ni + 1)]
        · intro _
          show M < c.ni + 1
          omega
    | work idx =>
      rw [show (if isDone (WState.work idx) = true then 1 else 0) = 0 from rfl,
        Nat.add_zero] at hDCold
      have hred : stepWorker M c i =
          { c with pub := c.pub ++ [idx], prog := c.prog + 1,
                   ws := l₁ ++ WState.start :: l₂ } := by
        simp only [stepWorker, hget, stepAt, hset]
      rw [hred]
      refine ⟨h1, hLen _, ?_⟩
      dsimp only [doneCount]
      rw [PageFetch.filterLen_middle,
        show (if isDone WState.start = true then 1 else 0) = 0 from rfl, Nat.add_zero]
      intro hpos
      exact h3 (by omega)
    | done =>
      have hred : stepWorker M c i = c := by
        simp only [stepWorker, hget, stepAt]
      rw [hred]
      exact ⟨h1, h2, h3⟩

/-- Running any schedule preserves the invariant. -/
theorem invD_run {M n : Nat} {c : Config} (hc : InvD M n c) (sched : List Nat) :
    InvD M n (run M c sched) := by
  induction sched generalizing c with
  | nil => exact hc
  | cons i t ih => exact ih (invD_step hc i)

/-- In a terminal configuration the claimed in-range indices are exactly
`0..M-1`. -/
theorem invD_terminal {M n : Nat} {c : Config} (hc : InvD M n c) (hn : 1 ≤ n)
    (hd : allDone c = true) : c.reqs = List.range M := by
  have hall : ∀ w ∈ c.ws, isDone w = true := by
    simpa [allDone, List.all_eq_true] using hd
  have hdc : doneCount c = n := by
    rw [doneCount, List.filter_eq_self.mpr hall, hc.ws_len]
  have hni := hc.done_ni (by omega)
  rw [hc.reqs_eq, Nat.min_eq_right (by omega)]

/-- The element sitting at the replacement site of a decomposed list. -/
theorem getElem?_append_mid {γ : Type} (l₁ l₂ : List γ) (b : γ) :
    (l₁ ++ b :: l₂)[l₁.length]? = some b := by
  rw [List.getElem?_append_right (le_refl _)]
  simp

/-- Positions other than the replacement site are unaffected. -/
theorem getElem?_append_ne {γ : Type} (l₁ l₂ : List γ) (a b : γ) (j : Nat)
    (h : j ≠ l₁.length) : (l₁ ++ a :: l₂)[j]? = (l₁ ++ b :: l₂)[j]? := by
  rcases Nat.lt_or_ge j l₁.length with hlt | hge
  · rw [List.getElem?_append_left hlt, List.getElem?_append_left hlt]
  · rw [List.getElem?_append_right hge, List.getElem?_append_right hge]
    rw [show j - l₁.length = (j - l₁.length - 1) + 1 by omega]
    simp

/-- Once the cursor has passed `M`, scheduling each remaining non-exited
worker once drives the system to the all-done state. -/
theorem runD_drain (M : Nat) :
    ∀ (l : List Nat) (c : Config), M < c.ni →
      (∀ w ∈ c.ws, w = WState.start ∨ w = WState.done) →
      (∀ j, j < c.ws.length → c.ws[j]? = some WState.done ∨ j ∈ l) →
      allDone (run M c l) = true := by
  intro l
  induction l with
  | nil =>
    intro c _ _ hcov
    have hrc : run M c [] = c := rfl
    rw [hrc]
    unfold allDone
    rw [List.all_eq_true]
    intro w hw
    obtain ⟨j, hj, hjw⟩ := List.mem_iff_getElem.mp hw
    rcases hcov j hj with hdone | hmem
    · have : c.ws[j]? = some w := by
        rw [List.getElem?_eq_getElem hj, hjw]
      rw [this] at hdone
      cases hdone
      rfl
    · simp at hmem
  | cons i t ih =>
    intro c hni hsd hcov
    show allDone (run M (stepWorker M c i) t) = true
    rcases hget : c.ws[i]? with _ | w
    · have hid : stepWorker M c i = c := by
        simp only [stepWorker, hget]
      rw [hid]
      apply ih c hni hsd
      intro j hj
      rcases hcov j hj with hd | hm
      · exact Or.inl hd
      · rcases List.mem_cons.mp hm with rfl | hm'
        · rw [List.getElem?_eq_none_iff] at hget
          omega
        · exact Or.inr hm'
    · rcases hsd w (List.getElem?_mem hget) with rfl | rfl
      · obtain ⟨l₁, l₂, hws, hlen, hset⟩ := PageFetch.getElem?_decomp hget
        have hred : stepWorker M c i =
            { c with ni := c.ni + 1, ws := l₁ ++ WState.done :: l₂ } := by
          simp only [stepWorker, hget, stepAt, if_neg (by omega : ¬ c.ni < M), hset]
        rw [hred]
        apply ih
        · show M < c.ni + 1
          omega
        · intro w hw
          rcases List.mem_append.mp hw with hin | hin
          · exact hsd w (by rw [hws]; exact List.mem_append.mpr (Or.inl hin))
          · rcases List.mem_cons.mp hin with rfl | hin'
            · exact Or.inr rfl
            · exact hsd w
                (by rw [hws]; exact List.mem_append.mpr (Or.inr (List.mem_cons_of_mem _ hin')))
        · intro j hj
          have hjlen : j < c.ws.length := by
            rw [hws]
            simpa using hj
          by_cases hji : j = i
          · subst hji
            left
            show (l₁ ++ WState.done :: l₂)[j]? = some WState.done
            rw [← hlen]
            exact getElem?_append_mid l₁ l₂ WState.done
          · have hsame : (l₁ ++ WState.done :: l₂)[j]? = c.ws[j]? := by
              rw [hws]
              exact getElem?_append_ne l₁ l₂ WState.done WState.start j (by omega)
            rcases hcov j hjlen with hd | hm
            · left
              rw [hsame]
              exact hd
            · rcases List.mem_cons.mp hm with rfl | hm'
              · exact absurd rfl hji
              · exact Or.inr hm'
      · have hred : stepWorker M c i = c := by
          simp only [stepWorker, hget, stepAt]
        rw [hred]
        apply ih c hni hsd
        intro j hj
        rcases hcov j hj with hd | hm
        · exact Or.inl hd
        · rcases List.mem_cons.mp hm with rfl | hm'
          · exact Or.inl hget
          · exact Or.inr hm'

/-- Worker 0 claims unit `k` and publishes it: two steps of the canonical
schedule. -/
theorem runD_two_steps (M m k : Nat) (hk : k < M) :
    run M ⟨k, List.range k, List.range k, k, List.replicate (m + 1) WState.start⟩ [0, 0] =
      ⟨k + 1, List.range (k + 1), List.range (k + 1), k + 1,
        List.replicate (m + 1) WState.start⟩ := by
  have hstep1 : stepWorker M
      ⟨k, List.range k, List.range k, k, List.replicate (m + 1) WState.start⟩ 0 =
      ⟨k + 1, List.range k ++ [k], List.range k, k,
        WState.work k :: List.replicate m WState.start⟩ := by
    simp [stepWorker, stepAt, List.replicate_succ, hk]
  have hstep2 : stepWorker M
      ⟨k + 1, List.range k ++ [k], List.range k, k,
        WState.work k :: List.replicate m WState.start⟩ 0 =
      ⟨k + 1, List.range k ++ [k], List.range k ++ [k], k + 1,
        WState.start :: List.replicate m WState.start⟩ := by
    simp [stepWorker, stepAt]
  show stepWorker M (stepWorker M _ 0) 0 = _
  rw [hstep1, hstep2]
  rw [← List.range_succ, ← List.replicate_succ]

/-- Worker 0 alone performs the first `k ≤ M` units of the canonical
schedule. -/
theorem runD_zeros (M m : Nat) :
    ∀ k, k ≤ M →
      run M (init (m + 1)) (List.replicate (2 * k) 0) =
        ⟨k, List.range k, List.range k, k, List.replicate (m + 1) WState.start⟩ := by
  intro k
  induction k with
  | zero => intro _; rfl
  | succ k ih =>
    intro hk
    have hrep : List.replicate (2 * (k + 1)) (0 : Nat) =
        List.replicate (2 * k) 0 ++ [0, 0] := by
      rw [show 2 * (k + 1) = 2 * k + 2 by ring, List.replicate_add]
      rfl
    rw [hrep,
      show run M (init (m + 1)) (List.replicate (2 * k) 0 ++ [0, 0]) =
        run M (run M (init (m + 1)) (List.replicate (2 * k) 0)) [0, 0] from by
          simp [run, List.foldl_append],
      ih (by omega)]
    exact runD_two_steps M m k (by omega)

/-- Worker 0 observes the exhausted cursor and exits. -/
theorem runD_final_claim (M m : Nat) :
    stepWorker M ⟨M, List.range M, List.range M, M, List.replicate (m + 1) WState.start⟩ 0 =
      ⟨M + 1, List.range M, List.range M, M,
        WState.done :: List.replicate m WState.start⟩ := by
  simp [stepWorker, stepAt, List.replicate_succ]

/-- C5 (confirmed): for every list of `M` merge-request identifiers and
every worker count `n ≥ 1`, in every terminating interleaving the
discussion fetcher issues exactly `M` discussion-list requests — each index
`0..M-1` claimed exactly once, no duplicate, no gap — and a terminating
interleaving exists. -/
theorem c5_discussions_exact (M n : Nat) (hn : 1 ≤ n) :
    (∀ sched : List Nat, allDone (run M (init n) sched) = true →
        (run M (init n) sched).reqs = List.range M
        ∧ (run M (init n) sched).reqs.length = M
        ∧ (run M (init n) sched).reqs.Nodup
        ∧ ∀ idx, idx ∈ (run M (init n) sched).reqs ↔ idx < M)
    ∧ allDone (run M (init n) (drainSched M n)) = true := by
  constructor
  · intro sched hdone
    have hreqs := invD_terminal (invD_run (invD_init M n) sched) hn hdone
    refine ⟨hreqs, by rw [hreqs]; exact List.length_range M,
      by rw [hreqs]; exact List.nodup_range M, ?_⟩
    intro idx
    rw [hreqs, List.mem_range]
  · obtain ⟨m, rfl⟩ : ∃ m, n = m + 1 := ⟨n - 1, by omega⟩
    unfold drainSched
    rw [show run M (init (m + 1)) (List.replicate (2 * M + 1) 0 ++ List.range (m + 1)) =
      run M (run M (init (m + 1)) (List.replicate (2 * M + 1) 0)) (List.range (m + 1)) from by
        simp [run, List.foldl_append]]
    have hz : run M (init (m + 1)) (List.replicate (2 * M + 1) 0) =
        ⟨M + 1, List.range M, List.range M, M,
          WState.done :: List.replicate m WState.start⟩ := by
      rw [show List.replicate (2 * M + 1) (0 : Nat) = List.replicate (2 * M) 0 ++ [0] from by
          rw [List.replicate_add]
          rfl,
        show run M (init (m + 1)) (List.replicate (2 * M) 0 ++ [0]) =
          run M (run M (init (m + 1)) (List.replicate (2 * M) 0)) [0] from by
            simp [run, List.foldl_append],
        runD_zeros M m M (le_refl M)]
      exact runD_final_claim M m
    rw [hz]
    apply runD_drain
    · show M < M + 1
      omega
    · intro w hw
      rcases List.mem_cons.mp hw with rfl | hw'
      · exact Or.inr rfl
      · exact Or.inl (List.eq_of_mem_replicate hw')
    · intro j hj
      right
      rw [List.mem_range]
      simpa using hj

/-- C5 witness: two workers on two merge requests claim exactly the indices
0 and 1 on the canonical schedule, which terminates. -/
theorem c5_witness :
    ((run 2 (init 2) (drainSched 2 2)).reqs = List.range 2
      ∧ (run 2 (init 2) (drainSched 2 2)).reqs.length = 2
      ∧ (run 2 (init 2) (drainSched 2 2)).reqs.Nodup
      ∧ ∀ idx, idx ∈ (run 2 (init 2) (drainSched 2 2)).reqs ↔ idx < 2)
    ∧ allDone (run 2 (init 2) (drainSched 2 2)) = true :=
  ⟨(c5_discussions_exact 2 2 (by decide)).1 (drainSched 2 2) (by decide),
   (c5_discussions_exact 2 2 (by decide)).2⟩

end IdxFetch

/-- C9 witness: a matching-host URL resolves to its stripped path; a
mismatched-host URL yields the validation error for every resolver oracle. -/
theorem c9_witness :
    extractPath (chars "https://gitlab.example/group/proj") (chars "https://gitlab.example") =
      Except.ok (trimLeadSlash (goParseURL (chars "https://gitlab.example/group/proj")).path)
    ∧ resolveInput (fun _ => [(1, chars "x")]) (chars "https://other.example/x")
        (chars "https://gitlab.example") = Except.error
        (ExtractErr.hostMismatch (goParseURL (chars "https://other.example/x")).host
          (goParseURL (chars "https://gitlab.example")).host) :=
  ⟨(c9_extract_path.1 _ _).1 (by decide),
   ((c9_extract_path.1 _ _).2 (by decide)).2 _⟩

end GitlabStat
